import Mathlib

/-!
# Minesweeper: the minefield model and the click controller

A shallow embedding of `src/minesweeper.cpp` (and of the fragment
`src/src/minesweeper.cpp`) together with the properties proved about it.

Modelling conventions.

* C++ `int` values are integers (`Int`).  The one `int` operation of the
  program that user-sized operands can overflow, the product `rows * columns`
  in the test of `Alloc`, is taken in 32 bits (`wrapInt32`): where the exact
  product does not fit, which is undefined behaviour in C++, the model takes
  the two's complement value compilers produce.
* The heap grid `Cell **grid` is `Option (List (List Cell))`; `none` is the
  null pointer.  Every access `grid[r][c]` goes through `Field.read` or
  `Field.write`, which fail with a `Fault` on a null grid or on an index
  outside the allocated block.
* `rand()` is an oracle: `PopulateMines` receives the finite list of the values
  the next calls of `rand()` return.  When the list is used up before the
  placement loop ends the run is cut off with `Fault.noMoreDraws`.
  `srand(time(NULL))` reseeds on every call, so every call of `PopulateMines`
  receives a list of its own.
* The function-local `static int unlocks` of `ClickOnCell` is a component of
  the explicit `Game` state.
-/

namespace Minesweeper

/-! ## Data model -/

/-- The macro `CELL_SIZE`. -/
def CELL_SIZE : Int := 50

/-- The value of `SDL_BUTTON_LEFT` in the SDL2 headers. -/
def SDL_BUTTON_LEFT : Int := 1

/-- The value of `SDL_BUTTON_RIGHT` in the SDL2 headers. -/
def SDL_BUTTON_RIGHT : Int := 3

/-- The enumeration `State`. -/
inductive State where
  | RunningState
  | QuitState
  | SuccessState
  | FailureState
deriving DecidableEq, Repr

/-- The structure `Cell`. -/
structure Cell where
  locked : Bool
  flagged : Bool
  trapped : Bool
  danger : Int
deriving DecidableEq, Repr

/-- The method `Cell::RaiseDanger`: `if (danger < 8 && !trapped) danger++;`. -/
def Cell.RaiseDanger (cell : Cell) : Cell :=
  if cell.danger < 8 ∧ cell.trapped = false then
    { cell with danger := cell.danger + 1 }
  else cell

/-- The ways a run leaves the defined behaviour of the program, plus the
cut-off of a run whose supply of random draws is used up. -/
inductive Fault where
  | nullDeref
  | outOfBounds
  | divByZero
  | noMoreDraws
deriving DecidableEq, Repr

/-- The structure `Field` with its default member initialisers. -/
structure Field where
  rows : Int := 16
  columns : Int := 12
  mineCount : Int := 20
  grid : Option (List (List Cell)) := none
deriving DecidableEq, Repr

/-- The session: the field, the `State` variable of `BeginGameLoop` and the
static counter `unlocks` of `ClickOnCell`. -/
structure Game where
  field : Field
  state : State
  unlocks : Int
deriving DecidableEq, Repr

/-! ## Memory access -/

/-- Reading `grid[r][c]`. -/
def Field.read (f : Field) (r c : Int) : Except Fault Cell :=
  match f.grid with
  | none => .error .nullDeref
  | some g =>
    if r < 0 ∨ c < 0 then .error .outOfBounds
    else
      match g[r.toNat]? with
      | none => .error .outOfBounds
      | some row =>
        match row[c.toNat]? with
        | none => .error .outOfBounds
        | some cell => .ok cell

/-- Storing `v` into `grid[r][c]`. -/
def Field.write (f : Field) (r c : Int) (v : Cell) : Except Fault Field :=
  match f.grid with
  | none => .error .nullDeref
  | some g =>
    if r < 0 ∨ c < 0 then .error .outOfBounds
    else
      match g[r.toNat]? with
      | none => .error .outOfBounds
      | some row =>
        if c.toNat < row.length then
          .ok { f with grid := some (g.set r.toNat (row.set c.toNat v)) }
        else .error .outOfBounds

/-- The call `grid[r][c].RaiseDanger()`. -/
def Field.raise (f : Field) (r c : Int) : Except Fault Field := do
  let cell ← f.read r c
  f.write r c cell.RaiseDanger

/-! ## The field operations -/

/-- The value a 32-bit `int` holds for the exact result `x`: `x` itself when
`-2147483648 ≤ x ≤ 2147483647`, and its two's complement wrap otherwise. -/
def wrapInt32 (x : Int) : Int :=
  (x + 2147483648) % 4294967296 - 2147483648

/-- The method `Field::Alloc` of `src/minesweeper.cpp`.  The product
`rows * columns` is an `int` product.  `malloc` returns storage with
indeterminate contents: `heap r c` is what the fresh block holds at row `r`,
column `c`.  `malloc` is taken to succeed. -/
def Field.Alloc (f : Field) (heap : Nat → Nat → Cell) : Field :=
  if f.rows < 2 ∨ f.columns < 2 ∨ f.mineCount < 2
      ∨ wrapInt32 (f.rows * f.columns) ≤ f.mineCount then f
  else
    { f with grid := some ((List.range f.rows.toNat).map fun r =>
        (List.range f.columns.toNat).map fun c => heap r c) }

/-- The method `MineField::Alloc` of `src/src/minesweeper.cpp`.  The header
`minesweeper.hpp` is not part of the sources; `MineField` and `FieldCell` are
taken to have the members of `Field` and `Cell`, which are the ones the
fragment uses.  The product `rows * columns` is an `int` product.  Every cell
is stored as `{locked = false, flagged = false, trapped = false, danger = 0}`. -/
def MineField.Alloc (f : Field) : Field :=
  if f.rows < 2 ∨ f.columns < 2 ∨ f.mineCount < 2
      ∨ wrapInt32 (f.rows * f.columns) ≤ f.mineCount then f
  else
    { f with grid := some ((List.range f.rows.toNat).map fun _ =>
        (List.range f.columns.toNat).map fun _ =>
          { locked := false, flagged := false, trapped := false, danger := 0 }) }

/-- The method `Field::InBounds`. -/
def Field.InBounds (f : Field) (r c : Int) : Bool :=
  decide (r ≥ 0) && decide (r < f.rows) && decide (c ≥ 0) && decide (c < f.columns)

/-- The value every cell is reset to at the start of `PopulateMines`. -/
def freshCell : Cell :=
  { locked := true, flagged := false, trapped := false, danger := 0 }

/-- The inner reset loop of `PopulateMines`, for one row `r`. -/
def Field.resetRow (f : Field) (r : Nat) : Except Fault Field :=
  (List.range f.columns.toNat).foldlM (fun g (c : Nat) => g.write r c freshCell) f

/-- The reset loops of `PopulateMines` (lines 64 to 72). -/
def Field.resetCells (f : Field) : Except Fault Field :=
  (List.range f.rows.toNat).foldlM (fun g r => g.resetRow r) f

/-- The body of the `else` branch of the placement loop (lines 81 to 99): trap
`grid[r][c]` and raise the danger of its in-bounds neighbours. -/
def Field.placeMine (f : Field) (r c : Int) : Except Fault Field :=
  f.read r c >>= fun cell =>
  f.write r c { cell with trapped := true } >>= fun f =>
  let n := f.InBounds (r - 1) c
  let s := f.InBounds (r + 1) c
  let w := f.InBounds r (c - 1)
  let e := f.InBounds r (c + 1)
  (if w then f.raise r (c - 1) else pure f) >>= fun f =>
  (if e then f.raise r (c + 1) else pure f) >>= fun f =>
  (if n then
      f.raise (r - 1) c >>= fun f =>
      (if w then f.raise (r - 1) (c - 1) else pure f) >>= fun f =>
      if e then f.raise (r - 1) (c + 1) else pure f
    else pure f) >>= fun f =>
  if s then
    f.raise (r + 1) c >>= fun f =>
    (if w then f.raise (r + 1) (c - 1) else pure f) >>= fun f =>
    if e then f.raise (r + 1) (c + 1) else pure f
  else pure f

/-- The placement loop `for (int m = 0; m < mineCount; m++)` of
`PopulateMines`, started with loop counter `m`.  Each iteration takes two
draws; a draw that hits a trapped cell does `m--` before the `m++` of the
loop. -/
def Field.placeLoop : List Nat → Field → Int → Except Fault Field
  | a :: b :: rest, f, m =>
    if m < f.mineCount then
      if f.rows = 0 ∨ f.columns = 0 then .error .divByZero
      else
        let r := Int.tmod a f.rows
        let c := Int.tmod b f.columns
        match f.read r c with
        | .error e => .error e
        | .ok cell =>
          if cell.trapped then Field.placeLoop rest f (m - 1 + 1)
          else
            match f.placeMine r c with
            | .error e => .error e
            | .ok g => Field.placeLoop rest g (m + 1)
    else .ok f
  | _, f, m => if m < f.mineCount then .error .noMoreDraws else .ok f

/-- The method `Field::PopulateMines`; `draws` are the values of the calls of
`rand()` after `srand(time(NULL))`. -/
def Field.PopulateMines (f : Field) (draws : List Nat) : Except Fault Field := do
  let f ← f.resetCells
  Field.placeLoop draws f 0

/-- The inner loop of `RevealMines`, for one row `r`. -/
def Field.revealRow (f : Field) (r : Nat) : Except Fault Field :=
  (List.range f.columns.toNat).foldlM
    (fun g (c : Nat) => do
      let cell ← g.read r c
      if cell.trapped then g.write r c { cell with locked := false } else pure g) f

/-- The method `Field::RevealMines`. -/
def Field.RevealMines (f : Field) : Except Fault Field :=
  (List.range f.rows.toNat).foldlM (fun g r => g.revealRow r) f

/-! ## The controller -/

/-- The function `ClickOnCell`.  `rolls` holds one list of draws for every
call of `PopulateMines` the click can make; the recursive call of the re-roll
branch goes on with the lists that are left. -/
def ClickOnCell : List (List Nat) → Game → Int → Int → Int → Except Fault Game
  | rolls, g, button, r, c =>
    match g.field.read r c with
    | .error e => .error e
    | .ok cell =>
      if button = SDL_BUTTON_LEFT then
        let unlocks := g.unlocks + 1
        if cell.locked ∧ cell.flagged = false then
          match g.field.write r c { cell with locked := false } with
          | .error e => .error e
          | .ok f1 =>
            if cell.trapped then
              if unlocks < 2 then
                match rolls with
                | [] => .error .noMoreDraws
                | draws :: rest =>
                  match f1.PopulateMines draws with
                  | .error e => .error e
                  | .ok f2 =>
                    ClickOnCell rest { g with field := f2, unlocks := 0 } button r c
              else
                match f1.RevealMines with
                | .error e => .error e
                | .ok f2 => .ok { field := f2, state := .FailureState, unlocks := unlocks }
            else .ok { g with field := f1, unlocks := unlocks }
        else .ok { g with unlocks := unlocks }
      else if button = SDL_BUTTON_RIGHT then
        if cell.locked then
          match g.field.write r c { cell with flagged := !cell.flagged } with
          | .error e => .error e
          | .ok f1 => .ok { g with field := f1 }
        else .ok g
      else .ok g

/-- An input event as `HandleEvents` tells them apart: `SDL_QUIT`,
`SDL_MOUSEBUTTONUP` with its button and pixel position, and any other. -/
inductive Event where
  | quit
  | mouseButtonUp (button x y : Int)
  | other
deriving DecidableEq, Repr

/-- The function `HandleEvents`: the queue of pending events is drained in
order.  Every event comes with the lists of draws its handling may use. -/
def HandleEvents : List (Event × List (List Nat)) → Game → Except Fault Game
  | [], g => .ok g
  | (.quit, _) :: rest, g => HandleEvents rest { g with state := .QuitState }
  | (.mouseButtonUp button x y, rolls) :: rest, g =>
    if g.state = .RunningState then
      match ClickOnCell rolls g button (Int.tdiv y CELL_SIZE) (Int.tdiv x CELL_SIZE) with
      | .error e => .error e
      | .ok g1 => HandleEvents rest g1
    else HandleEvents rest g
  | (.other, _) :: rest, g => HandleEvents rest g

/-- The memory accesses of `RenderGame` for the cell at row `r`, column `c`:
the cell is read, and for an unlocked cell without a mine the table
`numbers`, of 9 entries, is indexed by `danger`. -/
def RenderCell (f : Field) (r c : Nat) : Except Fault Unit := do
  let cell ← f.read r c
  if cell.locked then pure ()
  else if cell.trapped then pure ()
  else if 0 ≤ cell.danger ∧ cell.danger < 9 then pure ()
  else .error .outOfBounds

/-- The memory accesses of the function `RenderGame`; the drawing itself is
done by the rendering library. -/
def RenderGame (f : Field) : Except Fault Unit :=
  (List.range f.rows.toNat).forM fun r =>
    (List.range f.columns.toNat).forM fun c => RenderCell f r c

/-- The `while (state != QuitState)` loop of `BeginGameLoop`, run for the
frames given: `frames` lists the events pending in each frame. -/
def gameLoop : List (List (Event × List (List Nat))) → Game → Except Fault Game
  | [], g => .ok g
  | events :: rest, g =>
    if g.state = .QuitState then .ok g
    else
      match RenderGame g.field with
      | .error e => .error e
      | .ok _ =>
        match HandleEvents events g with
        | .error e => .error e
        | .ok g1 => gameLoop rest g1

/-- The function `BeginGameLoop`: `Alloc`, then `PopulateMines`, then the
texture load (`texturesLoad` tells whether it succeeds), then the frame
loop. -/
def BeginGameLoop (field : Field) (heap : Nat → Nat → Cell) (draws : List Nat)
    (texturesLoad : Bool) (frames : List (List (Event × List (List Nat)))) :
    Except Fault Game :=
  let field := field.Alloc heap
  match field.PopulateMines draws with
  | .error e => .error e
  | .ok field =>
    let state := if texturesLoad then State.RunningState else State.QuitState
    gameLoop frames { field := field, state := state, unlocks := 0 }

/-! ## Notions used in the statements -/

/-- The grid is allocated as `rows` rows of `columns` cells. -/
def Field.Allocated (f : Field) : Prop :=
  ∃ g, f.grid = some g ∧ g.length = f.rows.toNat ∧ ∀ row ∈ g, row.length = f.columns.toNat

/-- The fields `f` and `g` have the same `rows`, `columns` and `mineCount`. -/
def Field.SameDims (f g : Field) : Prop :=
  g.rows = f.rows ∧ g.columns = f.columns ∧ g.mineCount = f.mineCount

/-- The cell stored at `grid[r][c]`, for reasoning: `freshCell` where the access
is not defined. -/
def Field.cell (f : Field) (r c : Int) : Cell :=
  match f.read r c with
  | .ok x => x
  | .error _ => freshCell

/-- The cell at `(i, j)` is one of the up to 8 Moore neighbours of `(r, c)`. -/
def adjacent (i j r c : Int) : Prop :=
  r - 1 ≤ i ∧ i ≤ r + 1 ∧ c - 1 ≤ j ∧ j ≤ c + 1 ∧ ¬ (i = r ∧ j = c)

/-- Adjacency is decided by comparing the coordinates. -/
instance (i j r c : Int) : Decidable (adjacent i j r c) := by
  unfold adjacent; infer_instance

/-- Whether `(r, c)` is a cell of the field that holds a mine. -/
def Field.isTrapped (f : Field) (r c : Int) : Bool :=
  f.InBounds r c && (f.cell r c).trapped

/-- The number of cells of the field with `trapped = true`. -/
def Field.trappedCount (f : Field) : Nat :=
  ((Finset.range f.rows.toNat ×ˢ Finset.range f.columns.toNat).filter
    fun p => f.isTrapped p.1 p.2 = true).card

/-- The row and column offsets of the 8 Moore neighbours of a cell. -/
def mooreOffsets : List (Int × Int) :=
  [(-1, -1), (-1, 0), (-1, 1), (0, -1), (0, 1), (1, -1), (1, 0), (1, 1)]

/-- The number of trapped cells among the in-bounds Moore neighbours of
`(r, c)`. -/
def Field.trappedNeighbours (f : Field) (r c : Int) : Nat :=
  mooreOffsets.countP fun d => f.isTrapped (r + d.1) (c + d.2)

/-- The state of the cells between two iterations of the placement loop of
`PopulateMines`, and after it: the grid is allocated, every cell is locked and
unflagged with `danger` between 0 and 8, and the `danger` of a cell without a
mine is the number of mines among its in-bounds Moore neighbours. -/
def Field.Populated (f : Field) : Prop :=
  f.Allocated ∧ ∀ i j, f.InBounds i j = true →
    (f.cell i j).locked = true ∧ (f.cell i j).flagged = false ∧
    0 ≤ (f.cell i j).danger ∧ (f.cell i j).danger ≤ 8 ∧
    ((f.cell i j).trapped = false → (f.cell i j).danger = f.trappedNeighbours i j)

/-- The valid configurations of the specification: `rows ≥ 2`, `columns ≥ 2`
and `2 ≤ mineCount < rows * columns`, the product being the exact one. -/
def Field.Valid (f : Field) : Prop :=
  2 ≤ f.rows ∧ 2 ≤ f.columns ∧ 2 ≤ f.mineCount ∧ f.mineCount < f.rows * f.columns

/-- What `placeMine` at `(r, c)` leaves in the cells: the relation between the
field `f` before and the field `g` after. -/
def Field.PlacedAt (f g : Field) (r c : Int) : Prop :=
  f.SameDims g ∧ g.Allocated ∧ ∀ i j, f.InBounds i j = true → g.cell i j =
    if i = r ∧ j = c then { f.cell r c with trapped := true }
    else if adjacent i j r c then (f.cell i j).RaiseDanger else f.cell i j

/-! ## Sample data -/

/-- A cell with arbitrary contents, as left in memory before a reset. -/
def staleCell : Cell :=
  { locked := false, flagged := true, trapped := true, danger := 77 }

/-- A 2 by 2 field for 2 mines whose allocated cells hold stale contents. -/
def sampleField : Field :=
  { rows := 2, columns := 2, mineCount := 2,
    grid := some [[staleCell, staleCell], [staleCell, staleCell]] }

/-- The sample field populated with the draws `0, 0, 1, 1`: mines at `(0, 0)`
and `(1, 1)`. -/
def minedField : Field :=
  { rows := 2, columns := 2, mineCount := 2,
    grid := some [[{ locked := true, flagged := false, trapped := true, danger := 0 },
                   { locked := true, flagged := false, trapped := false, danger := 2 }],
                  [{ locked := true, flagged := false, trapped := false, danger := 2 },
                   { locked := true, flagged := false, trapped := true, danger := 1 }]] }

/-- Equality of the outcomes of two runs is decidable, so concrete runs can be
compared by evaluation. -/
instance {ε α : Type} [DecidableEq ε] [DecidableEq α] : DecidableEq (Except ε α) := fun a b =>
  match a, b with
  | .ok x, .ok y =>
    if h : x = y then isTrue (by rw [h]) else isFalse (fun e => h (by cases e; rfl))
  | .error x, .error y =>
    if h : x = y then isTrue (by rw [h]) else isFalse (fun e => h (by cases e; rfl))
  | .ok _, .error _ => isFalse (fun e => by cases e)
  | .error _, .ok _ => isFalse (fun e => by cases e)

/-- The session after the first click of the sample run: two re-rolls, then
the cell `(0, 0)` is revealed with no mine under it. -/
def firstClickGame : Game :=
  { field :=
      { rows := 2, columns := 2, mineCount := 2,
        grid := some [[{ locked := false, flagged := false, trapped := false, danger := 2 },
                       { locked := true, flagged := false, trapped := true, danger := 1 }],
                      [{ locked := true, flagged := false, trapped := true, danger := 0 },
                       { locked := true, flagged := false, trapped := false, danger := 2 }]] },
    state := .RunningState, unlocks := 1 }

/-- The sample field after a game has been played on it: other contents, same
dimensions. -/
def playedField : Field :=
  { rows := 2, columns := 2, mineCount := 2,
    grid := some [[{ locked := false, flagged := false, trapped := false, danger := 1 },
                   { locked := true, flagged := true, trapped := true, danger := 0 }],
                  [freshCell, freshCell]] }

/-- The invalid configuration of the specification: a single row. -/
def singleRowField : Field := { rows := 1, columns := 10, mineCount := 20 }

/-- The cell `MineField::Alloc` stores everywhere. -/
def unlockedCell : Cell :=
  { locked := false, flagged := false, trapped := false, danger := 0 }

/-- The populated sample field with a flag on the cell `(0, 1)`. -/
def flaggedField : Field :=
  { rows := 2, columns := 2, mineCount := 2,
    grid := some [[{ locked := true, flagged := false, trapped := true, danger := 0 },
                   { locked := true, flagged := true, trapped := false, danger := 2 }],
                  [{ locked := true, flagged := false, trapped := false, danger := 2 },
                   { locked := true, flagged := false, trapped := true, danger := 1 }]] }

/-- The flagged sample field after the game is lost on the mine at `(0, 0)`:
both mines are unlocked. -/
def lostField : Field :=
  { rows := 2, columns := 2, mineCount := 2,
    grid := some [[{ locked := false, flagged := false, trapped := true, danger := 0 },
                   { locked := true, flagged := true, trapped := false, danger := 2 }],
                  [{ locked := true, flagged := false, trapped := false, danger := 2 },
                   { locked := false, flagged := false, trapped := true, danger := 1 }]] }

/-! ## The second source file -/

/-- The method `FieldCell::RaiseDanger` of `src/src/minesweeper.cpp`:
`if (danger < 8 && !trapped) danger++;`. -/
def FieldCell.RaiseDanger (cell : Cell) : Cell :=
  if cell.danger < 8 ∧ cell.trapped = false then
    { cell with danger := cell.danger + 1 }
  else cell

/-- The method `MineField::InBounds` of `src/src/minesweeper.cpp`. -/
def MineField.InBounds (f : Field) (r c : Int) : Bool :=
  decide (r ≥ 0) && decide (r < f.rows) && decide (c ≥ 0) && decide (c < f.columns)

/-- The field of `main`: 12 rows, 10 columns, 20 mines. -/
def mainField : Field := { rows := 12, columns := 10, mineCount := 20 }

/-! ## Sessions -/

/-- The call `ClickOnCell(field, state, button, r, c)` takes the re-roll
branch: a left click on a locked, unflagged, trapped cell with `unlocks < 2`
after the increment. -/
def Game.Rerolls (g : Game) (button r c : Int) : Prop :=
  button = SDL_BUTTON_LEFT ∧ (g.field.cell r c).locked = true
    ∧ (g.field.cell r c).flagged = false ∧ (g.field.cell r c).trapped = true
    ∧ g.unlocks + 1 < 2

/-- The call `ClickOnCell(field, state, button, r, c)` loses the game: a left
click on a locked, unflagged, trapped cell with `unlocks ≥ 2` after the
increment. -/
def Game.Loses (g : Game) (button r c : Int) : Prop :=
  button = SDL_BUTTON_LEFT ∧ (g.field.cell r c).locked = true
    ∧ (g.field.cell r c).flagged = false ∧ (g.field.cell r c).trapped = true
    ∧ ¬ g.unlocks + 1 < 2

/-- The cell a call of `ClickOnCell` without re-roll leaves at a position of
the grid: `x` is the clicked cell before the call, `hit` tells whether the
position is the clicked one, `y` is the cell at the position before the
call. -/
def clickedCell (button : Int) (x : Cell) (hit : Bool) (y : Cell) : Cell :=
  if button = SDL_BUTTON_LEFT then
    if x.locked = true ∧ x.flagged = false then
      if hit = true ∨ (x.trapped = true ∧ y.trapped = true) then { y with locked := false }
      else y
    else y
  else if button = SDL_BUTTON_RIGHT then
    if x.locked = true ∧ hit = true then { y with flagged := !y.flagged } else y
  else y

/-- The invariant of a session: the field is valid and allocated, the state is
not `Success`, every cell has `danger` between 0 and 8, a flagged cell is
locked unless it holds a mine and the game is no longer running, and once the
state is `Failure` every cell with a mine is unlocked. -/
def Game.Inv (g : Game) : Prop :=
  g.field.Valid ∧ g.field.Allocated ∧ g.state ≠ .SuccessState ∧
  ∀ i j, g.field.InBounds i j = true →
    0 ≤ (g.field.cell i j).danger ∧ (g.field.cell i j).danger ≤ 8
    ∧ ((g.field.cell i j).flagged = true → (g.field.cell i j).locked = true
        ∨ ((g.field.cell i j).trapped = true ∧ g.state ≠ .RunningState))
    ∧ (g.state = .FailureState → (g.field.cell i j).trapped = true →
        (g.field.cell i j).locked = false)

/-- The sessions the program can reach: it starts `Running` with `unlocks = 0`
on a valid allocated field just populated by `PopulateMines`; `HandleEvents`
passes a click on an in-bounds cell to `ClickOnCell` while the state is
`Running`; a window-close event sets the state to `Quit`. -/
inductive Reachable : Game → Prop where
  | fresh (f0 f : Field) (draws : List Nat) :
      f0.Valid → f0.Allocated → f0.PopulateMines draws = .ok f →
      Reachable { field := f, state := .RunningState, unlocks := 0 }
  | click (g g1 : Game) (rolls : List (List Nat)) (button r c : Int) :
      Reachable g → g.state = .RunningState → g.field.InBounds r c = true →
      ClickOnCell rolls g button r c = .ok g1 → Reachable g1
  | quit (g : Game) : Reachable g → Reachable { g with state := .QuitState }

/-! ## Sample sessions -/

/-- The fresh session on the populated sample field. -/
def freshGame : Game := { field := minedField, state := .RunningState, unlocks := 0 }

/-- The fresh session after a left click on the safe cell `(0, 1)`. -/
def openedGame : Game :=
  { field :=
      { rows := 2, columns := 2, mineCount := 2,
        grid := some [[{ locked := true, flagged := false, trapped := true, danger := 0 },
                       { locked := false, flagged := false, trapped := false, danger := 2 }],
                      [{ locked := true, flagged := false, trapped := false, danger := 2 },
                       { locked := true, flagged := false, trapped := true, danger := 1 }]] },
    state := .RunningState, unlocks := 1 }

/-- The session `openedGame` after a right click on the mine at `(1, 1)`. -/
def flagMineGame : Game :=
  { field :=
      { rows := 2, columns := 2, mineCount := 2,
        grid := some [[{ locked := true, flagged := false, trapped := true, danger := 0 },
                       { locked := false, flagged := false, trapped := false, danger := 2 }],
                      [{ locked := true, flagged := false, trapped := false, danger := 2 },
                       { locked := true, flagged := true, trapped := true, danger := 1 }]] },
    state := .RunningState, unlocks := 1 }

/-- The session `flagMineGame` after a left click on the mine at `(0, 0)`: the
game is lost and `RevealMines` has unlocked both mines, the flagged one too. -/
def lostFlaggedGame : Game :=
  { field :=
      { rows := 2, columns := 2, mineCount := 2,
        grid := some [[{ locked := false, flagged := false, trapped := true, danger := 0 },
                       { locked := false, flagged := false, trapped := false, danger := 2 }],
                      [{ locked := true, flagged := false, trapped := false, danger := 2 },
                       { locked := false, flagged := true, trapped := true, danger := 1 }]] },
    state := .FailureState, unlocks := 2 }

/-- The session `openedGame` after a left click on `(1, 0)`: every cell
without a mine is revealed. -/
def clearedGame : Game :=
  { field :=
      { rows := 2, columns := 2, mineCount := 2,
        grid := some [[{ locked := true, flagged := false, trapped := true, danger := 0 },
                       { locked := false, flagged := false, trapped := false, danger := 2 }],
                      [{ locked := false, flagged := false, trapped := false, danger := 2 },
                       { locked := true, flagged := false, trapped := true, danger := 1 }]] },
    state := .RunningState, unlocks := 2 }

/-! ## Memory access on an allocated grid -/

theorem ok_bind {α β : Type} (x : α) (k : α → Except Fault β) :
    (Except.ok x >>= k) = k x := rfl

theorem pure_eq_ok {α : Type} (x : α) : (pure x : Except Fault α) = .ok x := rfl

theorem Field.SameDims.refl (f : Field) : f.SameDims f := ⟨rfl, rfl, rfl⟩

theorem Field.SameDims.trans {f g h : Field} (a : f.SameDims g) (b : g.SameDims h) :
    f.SameDims h :=
  ⟨b.1.trans a.1, b.2.1.trans a.2.1, b.2.2.trans a.2.2⟩

theorem Field.SameDims.inBounds {f g : Field} (a : f.SameDims g) (r c : Int) :
    g.InBounds r c = f.InBounds r c := by
  simp [Field.InBounds, a.1, a.2.1]

theorem Field.inBounds_iff (f : Field) (r c : Int) :
    f.InBounds r c = true ↔ 0 ≤ r ∧ r < f.rows ∧ 0 ≤ c ∧ c < f.columns := by
  simp [Field.InBounds, and_assoc]

theorem Field.read_of_inBounds {f : Field} (hf : f.Allocated) {r c : Int}
    (h : f.InBounds r c = true) : f.read r c = .ok (f.cell r c) := by
  obtain ⟨g, hg, hlen, hrow⟩ := hf
  rw [Field.inBounds_iff] at h
  have hr : r.toNat < g.length := by omega
  have hc : c.toNat < (g[r.toNat]).length := by
    rw [hrow _ (List.getElem_mem hr)]; omega
  have h1 : ¬ (r < 0 ∨ c < 0) := by omega
  simp [Field.cell, Field.read, hg, h1, List.getElem?_eq_getElem hr, List.getElem?_eq_getElem hc]

theorem Field.write_spec {f : Field} (hf : f.Allocated) {r c : Int}
    (h : f.InBounds r c = true) (v : Cell) :
    ∃ f1, f.write r c v = .ok f1 ∧ f.SameDims f1 ∧ f1.Allocated
      ∧ ∀ i j, f1.read i j = if i = r ∧ j = c then .ok v else f.read i j := by
  obtain ⟨g, hg, hlen, hrow⟩ := hf
  rw [Field.inBounds_iff] at h
  have hr : r.toNat < g.length := by omega
  have hc : c.toNat < (g[r.toNat]).length := by
    rw [hrow _ (List.getElem_mem hr)]; omega
  have h1 : ¬ (r < 0 ∨ c < 0) := by omega
  refine ⟨{ f with grid := some (g.set r.toNat ((g[r.toNat]).set c.toNat v)) },
    ?_, ⟨rfl, rfl, rfl⟩, ?_, ?_⟩
  · simp [Field.write, hg, h1, List.getElem?_eq_getElem hr, hc]
  · refine ⟨_, rfl, by simpa using hlen, ?_⟩
    intro row hmem
    rcases List.mem_or_eq_of_mem_set hmem with h2 | h2
    · exact hrow _ h2
    · subst h2
      simp only [List.length_set]
      exact hrow _ (List.getElem_mem hr)
  · intro i j
    by_cases hneg : i < 0 ∨ j < 0
    · have : ¬ (i = r ∧ j = c) := by omega
      simp [Field.read, hg, hneg, this]
    · by_cases hi : i = r
      · subst hi
        by_cases hj : j = c
        · subst hj
          simp [Field.read, hneg, hr, hc]
        · have : c.toNat ≠ j.toNat := by omega
          simp [Field.read, hg, hneg, hr, hj, List.getElem?_set, this,
            List.getElem?_eq_getElem hr]
      · have : r.toNat ≠ i.toNat := by omega
        simp [Field.read, hg, hneg, hi, List.getElem?_set, this]

theorem Field.write_cell {f : Field} (hf : f.Allocated) {r c : Int}
    (h : f.InBounds r c = true) (v : Cell) :
    ∃ f1, f.write r c v = .ok f1 ∧ f.SameDims f1 ∧ f1.Allocated
      ∧ ∀ i j, f1.cell i j = if i = r ∧ j = c then v else f.cell i j := by
  obtain ⟨f1, h1, h2, h3, h4⟩ := Field.write_spec hf h v
  refine ⟨f1, h1, h2, h3, ?_⟩
  intro i j
  unfold Field.cell
  rw [h4 i j]
  split_ifs <;> rfl

theorem Field.raise_cell {f : Field} (hf : f.Allocated) {r c : Int}
    (h : f.InBounds r c = true) :
    ∃ f1, f.raise r c = .ok f1 ∧ f.SameDims f1 ∧ f1.Allocated
      ∧ ∀ i j, f1.cell i j = if i = r ∧ j = c then (f.cell i j).RaiseDanger else f.cell i j := by
  obtain ⟨f1, h1, h2, h3, h4⟩ := Field.write_cell hf h (f.cell r c).RaiseDanger
  refine ⟨f1, ?_, h2, h3, ?_⟩
  · simp [Field.raise, Field.read_of_inBounds hf h, ok_bind, h1]
  · intro i j
    rw [h4 i j]
    split_ifs with hij
    · rw [hij.1, hij.2]
    · rfl

theorem Field.raiseIf_cell {f : Field} (hf : f.Allocated) {r c : Int} (b : Bool)
    (h : b = true → f.InBounds r c = true) :
    ∃ f1, (if b = true then f.raise r c else pure f) = .ok f1 ∧ f.SameDims f1 ∧ f1.Allocated
      ∧ ∀ i j, f1.cell i j =
          if b = true ∧ i = r ∧ j = c then (f.cell i j).RaiseDanger else f.cell i j := by
  cases b with
  | false => exact ⟨f, by simp [pure_eq_ok], Field.SameDims.refl f, hf, by simp⟩
  | true =>
    obtain ⟨f1, h1, h2, h3, h4⟩ := Field.raise_cell hf (h rfl)
    exact ⟨f1, by simp [h1], h2, h3, by simpa using h4⟩

/-! ## Placing one mine -/

/-- The three raises of the block guarded by `n` (with `dr = -1`) or by `s` (with
`dr = 1`) in `placeMine`. -/
theorem Field.raiseBlock_cell {f g : Field} (D : f.SameDims g) (hg : g.Allocated)
    {r c : Int} (h : f.InBounds r c = true) (dr : Int) :
    ∃ g1, (if f.InBounds (r + dr) c = true then
        (g.raise (r + dr) c >>= fun k =>
          (if f.InBounds r (c - 1) = true then k.raise (r + dr) (c - 1) else pure k) >>= fun k =>
          if f.InBounds r (c + 1) = true then k.raise (r + dr) (c + 1) else pure k)
        else pure g) = .ok g1 ∧ f.SameDims g1 ∧ g1.Allocated
      ∧ ∀ i j, f.InBounds i j = true → g1.cell i j =
          if i = r + dr ∧ (j = c - 1 ∨ j = c ∨ j = c + 1) then (g.cell i j).RaiseDanger
          else g.cell i j := by
  by_cases n : f.InBounds (r + dr) c = true
  · obtain ⟨f3, e3, d3, a3, c3⟩ := Field.raise_cell hg (r := r + dr) (c := c)
      (by rw [D.inBounds]; exact n)
    have D3 := D.trans d3
    obtain ⟨f4, e4, d4, a4, c4⟩ := Field.raiseIf_cell a3 (r := r + dr) (c := c - 1)
      (f.InBounds r (c - 1)) (fun hb => by
        rw [D3.inBounds]; rw [Field.inBounds_iff] at *; omega)
    have D4 := D3.trans d4
    obtain ⟨f5, e5, d5, a5, c5⟩ := Field.raiseIf_cell a4 (r := r + dr) (c := c + 1)
      (f.InBounds r (c + 1)) (fun hb => by
        rw [D4.inBounds]; rw [Field.inBounds_iff] at *; omega)
    refine ⟨f5, by simp [n, e3, ok_bind, e4, e5], D4.trans d5, a5, ?_⟩
    intro i j hij
    rw [c5, c4, c3]
    simp only [Field.inBounds_iff] at *
    split_ifs <;> first | rfl | (exfalso; omega)
  · refine ⟨g, by simp [n, pure_eq_ok], D, hg, ?_⟩
    intro i j hij
    simp only [Field.inBounds_iff] at *
    split_ifs <;> first | rfl | (exfalso; omega)

theorem Field.placeMine_cell {f : Field} (hf : f.Allocated) {r c : Int}
    (h : f.InBounds r c = true) :
    ∃ f1, f.placeMine r c = .ok f1 ∧ f.SameDims f1 ∧ f1.Allocated
      ∧ ∀ i j, f.InBounds i j = true → f1.cell i j =
          if i = r ∧ j = c then { f.cell r c with trapped := true }
          else if adjacent i j r c then (f.cell i j).RaiseDanger else f.cell i j := by
  obtain ⟨f0, e0, D0, a0, c0⟩ := Field.write_cell hf h { f.cell r c with trapped := true }
  obtain ⟨f1, e1, d1, a1, c1⟩ := Field.raiseIf_cell a0 (r := r) (c := c - 1)
    (f.InBounds r (c - 1)) (fun hb => by rw [D0.inBounds]; exact hb)
  have D1 := D0.trans d1
  obtain ⟨f2, e2, d2, a2, c2⟩ := Field.raiseIf_cell a1 (r := r) (c := c + 1)
    (f.InBounds r (c + 1)) (fun hb => by rw [D1.inBounds]; exact hb)
  have D2 := D1.trans d2
  obtain ⟨f5, e5, D5, a5, c5⟩ := Field.raiseBlock_cell D2 a2 h (-1)
  obtain ⟨f8, e8, D8, a8, c8⟩ := Field.raiseBlock_cell D5 a5 h 1
  refine ⟨f8, ?_, D8, a8, ?_⟩
  · simp only [Field.placeMine, Field.read_of_inBounds hf h, ok_bind, e0, D0.inBounds]
    simp only [e1, ok_bind, e2]
    have e5' := e5
    simp only [show r + -1 = r - 1 from rfl] at e5'
    simp only [e5', ok_bind, e8]
  · intro i j hij
    rw [c8 i j hij, c5 i j hij, c2, c1, c0]
    simp only [Field.inBounds_iff, adjacent] at *
    split_ifs <;> first | rfl | (exfalso; omega)

theorem Cell.raiseDanger_trapped (x : Cell) : x.RaiseDanger.trapped = x.trapped := by
  unfold Cell.RaiseDanger; split_ifs <;> rfl

theorem Cell.raiseDanger_locked (x : Cell) : x.RaiseDanger.locked = x.locked := by
  unfold Cell.RaiseDanger; split_ifs <;> rfl

theorem Cell.raiseDanger_flagged (x : Cell) : x.RaiseDanger.flagged = x.flagged := by
  unfold Cell.RaiseDanger; split_ifs <;> rfl

theorem Cell.raiseDanger_danger (x : Cell) :
    x.RaiseDanger.danger = if x.danger < 8 ∧ x.trapped = false then x.danger + 1 else x.danger := by
  unfold Cell.RaiseDanger; split_ifs <;> rfl

theorem Field.PlacedAt.isTrapped {f g : Field} {r c : Int} (h : f.PlacedAt g r c)
    (hrc : f.InBounds r c = true) (i j : Int) :
    g.isTrapped i j = (f.isTrapped i j || decide (i = r ∧ j = c)) := by
  obtain ⟨D, _, hc⟩ := h
  unfold Field.isTrapped
  rw [D.inBounds]
  by_cases hij : f.InBounds i j = true
  · rw [hc i j hij, hij]
    split_ifs with h1 h2
    · simp [h1]
    · simp [h1, Cell.raiseDanger_trapped]
    · simp [h1]
  · have hne : ¬ (i = r ∧ j = c) := by
      rintro ⟨rfl, rfl⟩; exact hij hrc
    simp [hij, hne]

theorem Field.PlacedAt.trappedCount {f g : Field} {r c : Int} (h : f.PlacedAt g r c)
    (hrc : f.InBounds r c = true) (hfree : (f.cell r c).trapped = false) :
    g.trappedCount = f.trappedCount + 1 := by
  have hT := h.isTrapped hrc
  obtain ⟨D, _, _⟩ := h
  rw [Field.inBounds_iff] at hrc
  unfold Field.trappedCount
  rw [D.1, D.2.1]
  have hnot : (r.toNat, c.toNat) ∉ (Finset.range f.rows.toNat ×ˢ Finset.range f.columns.toNat).filter
      (fun p => f.isTrapped p.1 p.2 = true) := by
    simp only [Finset.mem_filter, not_and]
    intro _
    have h1 : ((r.toNat : Nat) : Int) = r := by omega
    have h2 : ((c.toNat : Nat) : Int) = c := by omega
    simp [Field.isTrapped, h1, h2, hfree]
  rw [← Finset.card_insert_of_not_mem hnot]
  congr 1
  ext ⟨x, y⟩
  simp only [Finset.mem_filter, Finset.mem_product, Finset.mem_range, Finset.mem_insert,
    Prod.mk.injEq, hT, Bool.or_eq_true, decide_eq_true_eq]
  constructor
  · rintro ⟨hb, h1 | h1⟩
    · exact Or.inr ⟨hb, h1⟩
    · left; omega
  · rintro (h1 | ⟨hb, h1⟩)
    · refine ⟨by omega, Or.inr (by omega)⟩
    · exact ⟨hb, Or.inl h1⟩

theorem countP_or_disjoint {α : Type} (p q : α → Bool) (l : List α)
    (h : ∀ x ∈ l, ¬ (p x = true ∧ q x = true)) :
    l.countP (fun x => p x || q x) = l.countP p + l.countP q := by
  induction l with
  | nil => rfl
  | cons a t ih =>
    have ht := ih (fun x hx => h x (List.mem_cons_of_mem a hx))
    have ha := h a (List.mem_cons_self a t)
    simp only [List.countP_cons, ht]
    cases hp : p a <;> cases hq : q a <;> simp_all <;> omega

theorem mooreOffsets_count (i j r c : Int) :
    mooreOffsets.countP (fun d => decide (i + d.1 = r ∧ j + d.2 = c))
      = if adjacent i j r c then 1 else 0 := by
  simp only [mooreOffsets, List.countP_cons, List.countP_nil, decide_eq_true_eq, adjacent]
  by_cases hx : r - 1 ≤ i ∧ i ≤ r + 1 ∧ c - 1 ≤ j ∧ j ≤ c + 1 ∧ ¬ (i = r ∧ j = c)
  · rw [if_pos hx]
    have h1 : i = r - 1 ∨ i = r ∨ i = r + 1 := by omega
    have h2 : j = c - 1 ∨ j = c ∨ j = c + 1 := by omega
    rcases h1 with h1 | h1 | h1 <;> rcases h2 with h2 | h2 | h2 <;>
      first
        | (exfalso; omega)
        | simp (disch := omega) only [if_pos, if_neg]
  · rw [if_neg hx]
    simp (disch := omega) only [if_neg]

/-! ## The placement loop -/

theorem Field.PlacedAt.trappedNeighbours {f g : Field} {r c : Int} (h : f.PlacedAt g r c)
    (hrc : f.InBounds r c = true) (hfree : (f.cell r c).trapped = false) (i j : Int) :
    g.trappedNeighbours i j = f.trappedNeighbours i j + if adjacent i j r c then 1 else 0 := by
  unfold Field.trappedNeighbours
  simp only [h.isTrapped hrc]
  rw [countP_or_disjoint, mooreOffsets_count]
  rintro ⟨a, b⟩ _ ⟨h1, h2⟩
  simp only [decide_eq_true_eq] at h2
  rw [h2.1, h2.2] at h1
  simp [Field.isTrapped, hfree] at h1

theorem Field.trappedNeighbours_le (f : Field) (i j : Int) : f.trappedNeighbours i j ≤ 8 :=
  List.countP_le_length _

theorem Field.PlacedAt.populated {f g : Field} {r c : Int} (h : f.PlacedAt g r c)
    (hf : f.Populated) (hrc : f.InBounds r c = true) (hfree : (f.cell r c).trapped = false) :
    g.Populated := by
  have hN := h.trappedNeighbours hrc hfree
  obtain ⟨D, ag, hc⟩ := h
  refine ⟨ag, ?_⟩
  intro i j hij
  rw [D.inBounds] at hij
  obtain ⟨p1, p2, p3, p4, p5⟩ := hf.2 i j hij
  have hle := g.trappedNeighbours_le i j
  rw [hc i j hij]
  split_ifs with h1 h2
  · obtain ⟨rfl, rfl⟩ := h1
    exact ⟨p1, p2, p3, p4, by simp⟩
  · rw [Cell.raiseDanger_locked, Cell.raiseDanger_flagged, Cell.raiseDanger_trapped,
      Cell.raiseDanger_danger]
    refine ⟨p1, p2, ?_, ?_, ?_⟩
    · split_ifs <;> omega
    · split_ifs <;> omega
    · intro ht
      have := p5 ht
      rw [hN i j, if_pos h2] at hle ⊢
      rw [if_pos ⟨by omega, ht⟩]
      push_cast
      omega
  · refine ⟨p1, p2, p3, p4, ?_⟩
    intro ht
    rw [hN i j, if_neg h2, p5 ht]
    simp

theorem Field.placeLoop_bounded (n : Nat) :
    ∀ (draws : List Nat), draws.length ≤ n →
    ∀ (f : Field) (m : Int) (g : Field), f.Populated → (f.trappedCount : Int) = m →
      m ≤ f.mineCount → 0 < f.rows → 0 < f.columns → Field.placeLoop draws f m = .ok g →
      g.Populated ∧ f.SameDims g ∧ (g.trappedCount : Int) = g.mineCount := by
  induction n with
  | zero =>
    intro draws hn f m g hf hcount hm hr hc hrun
    have : draws = [] := List.length_eq_zero.mp (by omega)
    subst this
    simp only [Field.placeLoop] at hrun
    split_ifs at hrun with h1
    cases hrun
    exact ⟨hf, Field.SameDims.refl f, by omega⟩
  | succ n ih =>
    intro draws hn
    intro f m g hf hcount hm hr hc hrun
    match draws, hn with
    | [], _ =>
      simp only [Field.placeLoop] at hrun
      split_ifs at hrun with h1
      cases hrun
      exact ⟨hf, Field.SameDims.refl f, by omega⟩
    | [a], _ =>
      simp only [Field.placeLoop] at hrun
      split_ifs at hrun with h1
      cases hrun
      exact ⟨hf, Field.SameDims.refl f, by omega⟩
    | a :: b :: rest, hlen =>
      simp only [Field.placeLoop] at hrun
      split_ifs at hrun with h1 h2
      · have hib : f.InBounds (Int.tmod a f.rows) (Int.tmod b f.columns) = true := by
          rw [Field.inBounds_iff]
          rw [Int.tmod_eq_emod (Int.ofNat_zero_le a) (le_of_lt hr),
            Int.tmod_eq_emod (Int.ofNat_zero_le b) (le_of_lt hc)]
          exact ⟨Int.emod_nonneg _ (by omega), Int.emod_lt_of_pos _ hr,
            Int.emod_nonneg _ (by omega), Int.emod_lt_of_pos _ hc⟩
        rw [Field.read_of_inBounds hf.1 hib] at hrun
        simp only at hrun
        split_ifs at hrun with h3
        · have : m - 1 + 1 = m := by omega
          rw [this] at hrun
          exact ih rest (by simp at hlen; omega) f m g hf hcount hm hr hc hrun
        · obtain ⟨f1, e1, D1, a1, c1⟩ := Field.placeMine_cell hf.1 hib
          rw [e1] at hrun
          simp only at hrun
          have hP : f.PlacedAt f1 _ _ := ⟨D1, a1, c1⟩
          have h3' : (f.cell (Int.tmod a f.rows) (Int.tmod b f.columns)).trapped = false := by
            simpa using h3
          have := ih rest (by simp at hlen; omega) f1 (m + 1) g
            (hP.populated hf hib h3')
            (by rw [hP.trappedCount hib h3']; push_cast; omega)
            (by rw [D1.2.2]; omega) (by rw [D1.1]; exact hr) (by rw [D1.2.1]; exact hc) hrun
          exact ⟨this.1, D1.trans this.2.1, this.2.2⟩
      · cases hrun
        exact ⟨hf, Field.SameDims.refl f, by omega⟩

theorem Field.placeLoop_spec (draws : List Nat) (f : Field) (m : Int) (g : Field)
    (hf : f.Populated) (hcount : (f.trappedCount : Int) = m) (hm : m ≤ f.mineCount)
    (hr : 0 < f.rows) (hc : 0 < f.columns) (hrun : Field.placeLoop draws f m = .ok g) :
    g.Populated ∧ f.SameDims g ∧ (g.trappedCount : Int) = g.mineCount :=
  Field.placeLoop_bounded draws.length draws (le_refl _) f m g hf hcount hm hr hc hrun

/-! ## The loops over the grid -/

theorem foldlM_range_inv {σ : Type} (step : σ → Nat → Except Fault σ) (P : Nat → σ → Prop)
    (n : Nat) (s0 : σ) (h0 : P 0 s0)
    (hstep : ∀ k s, k < n → P k s → ∃ s1, step s k = .ok s1 ∧ P (k + 1) s1) :
    ∃ s1, (List.range n).foldlM step s0 = .ok s1 ∧ P n s1 := by
  induction n with
  | zero => exact ⟨s0, rfl, h0⟩
  | succ n ih =>
    obtain ⟨s1, e1, p1⟩ := ih (fun k s hk hp => hstep k s (Nat.lt_succ_of_lt hk) hp)
    obtain ⟨s2, e2, p2⟩ := hstep n s1 (Nat.lt_succ_self n) p1
    refine ⟨s2, ?_, p2⟩
    rw [List.range_succ, List.foldlM_append, e1, ok_bind]
    simp only [List.foldlM_cons, List.foldlM_nil, e2, ok_bind, pure_eq_ok]

theorem Field.resetRow_spec {f : Field} (hf : f.Allocated) (r : Nat) (hr : (r : Int) < f.rows) :
    ∃ g, f.resetRow r = .ok g ∧ f.SameDims g ∧ g.Allocated
      ∧ ∀ i j, f.InBounds i j = true →
          g.cell i j = if i = r then freshCell else f.cell i j := by
  obtain ⟨g, e, D, a, c⟩ := foldlM_range_inv (fun g (c : Nat) => g.write r c freshCell)
    (fun k g => f.SameDims g ∧ g.Allocated ∧ ∀ i j, g.cell i j =
      if i = r ∧ 0 ≤ j ∧ j < k then freshCell else f.cell i j)
    f.columns.toNat f
    ⟨Field.SameDims.refl f, hf, fun i j => by
      have : ¬ (i = r ∧ 0 ≤ j ∧ j < ((0 : Nat) : Int)) := by omega
      rw [if_neg this]⟩
    (by
      rintro k s hk ⟨D, a, c⟩
      obtain ⟨s1, e1, d1, a1, c1⟩ := Field.write_cell a (r := r) (c := k)
        (by rw [D.inBounds, Field.inBounds_iff]; omega) freshCell
      refine ⟨s1, e1, D.trans d1, a1, ?_⟩
      intro i j
      rw [c1, c]
      split_ifs <;> first | rfl | (exfalso; omega))
  refine ⟨g, ?_, D, a, ?_⟩
  · unfold Field.resetRow; exact e
  · intro i j hij
    rw [c]
    rw [Field.inBounds_iff] at hij
    split_ifs <;> first | rfl | (exfalso; omega)

theorem Field.resetCells_spec {f : Field} (hf : f.Allocated) :
    ∃ g, f.resetCells = .ok g ∧ f.SameDims g ∧ g.Allocated
      ∧ ∀ i j, f.InBounds i j = true → g.cell i j = freshCell := by
  obtain ⟨g, e, D, a, c⟩ := foldlM_range_inv (fun g r => g.resetRow r)
    (fun k g => f.SameDims g ∧ g.Allocated ∧ ∀ i j, f.InBounds i j = true → g.cell i j =
      if i < k then freshCell else f.cell i j)
    f.rows.toNat f
    ⟨Field.SameDims.refl f, hf, fun i j hij => by
      rw [Field.inBounds_iff] at hij
      have : ¬ (i < ((0 : Nat) : Int)) := by omega
      rw [if_neg this]⟩
    (by
      rintro k s hk ⟨D, a, c⟩
      obtain ⟨s1, e1, d1, a1, c1⟩ := Field.resetRow_spec a k (by rw [D.1]; omega)
      refine ⟨s1, e1, D.trans d1, a1, ?_⟩
      intro i j hij
      rw [c1 i j (by rw [D.inBounds]; exact hij), c i j hij]
      split_ifs <;> first | rfl | (exfalso; omega))
  refine ⟨g, e, D, a, ?_⟩
  intro i j hij
  rw [c i j hij]
  rw [Field.inBounds_iff] at hij
  split_ifs <;> first | rfl | (exfalso; omega)

theorem Field.populated_of_fresh {g : Field} (a : g.Allocated)
    (c : ∀ i j, g.InBounds i j = true → g.cell i j = freshCell) :
    g.Populated ∧ g.trappedCount = 0 := by
  have hT : ∀ i j, g.isTrapped i j = false := by
    intro i j
    unfold Field.isTrapped
    by_cases h : g.InBounds i j = true
    · rw [c i j h]; simp [freshCell]
    · simp [h]
  refine ⟨⟨a, ?_⟩, ?_⟩
  · intro i j hij
    rw [c i j hij]
    refine ⟨rfl, rfl, by decide, by decide, ?_⟩
    intro _
    simp [Field.trappedNeighbours, hT, freshCell]
  · simp [Field.trappedCount, hT]

theorem Field.populateMines_spec {f g : Field} (hf : f.Allocated) (hv : f.Valid)
    (draws : List Nat) (h : f.PopulateMines draws = .ok g) :
    g.Populated ∧ f.SameDims g ∧ (g.trappedCount : Int) = g.mineCount := by
  obtain ⟨f1, e1, D1, a1, c1⟩ := Field.resetCells_spec hf
  have hp := Field.populated_of_fresh a1 (fun i j hij => c1 i j (by rw [← D1.inBounds]; exact hij))
  obtain ⟨v1, v2, v3, _⟩ := hv
  simp only [Field.PopulateMines, e1, ok_bind] at h
  have := Field.placeLoop_spec draws f1 0 g hp.1 (by rw [hp.2]; rfl)
    (by rw [D1.2.2]; omega) (by rw [D1.1]; omega) (by rw [D1.2.1]; omega) h
  exact ⟨this.1, D1.trans this.2.1, this.2.2⟩

/-! ## Fields with the same cells -/

theorem Field.cell_eq_getElem {f : Field} {g : List (List Cell)} (hg : f.grid = some g)
    (n k : Nat) (hn : n < g.length) (hk : k < (g[n]).length) :
    f.cell n k = (g[n])[k] := by
  have h1 : ¬ ((n : Int) < 0 ∨ (k : Int) < 0) := by omega
  simp [Field.cell, Field.read, hg, h1, List.getElem?_eq_getElem hn, List.getElem?_eq_getElem hk]

theorem Field.ext_cells {f g : Field} (hf : f.Allocated) (hg : g.Allocated) (D : f.SameDims g)
    (h : ∀ i j, f.InBounds i j = true → f.cell i j = g.cell i j) : f = g := by
  obtain ⟨gf, ef, lf, rf⟩ := hf
  obtain ⟨gg, eg, lg, rg⟩ := hg
  obtain ⟨d1, d2, d3⟩ := D
  have key : gf = gg := by
    apply List.ext_getElem (by rw [lf, lg, d1])
    intro n h1 h2
    have r1 := rf _ (List.getElem_mem h1)
    have r2 := rg _ (List.getElem_mem h2)
    apply List.ext_getElem (by rw [r1, r2, d2])
    intro k k1 k2
    rw [← Field.cell_eq_getElem ef n k h1 k1, ← Field.cell_eq_getElem eg n k h2 k2]
    apply h
    rw [Field.inBounds_iff]
    omega
  cases f
  cases g
  simp_all

theorem Field.read_ok {f : Field} (hf : f.Allocated) {r c : Int} {x : Cell}
    (h : f.read r c = .ok x) : f.InBounds r c = true ∧ x = f.cell r c := by
  refine ⟨?_, by simp [Field.cell, h]⟩
  obtain ⟨g, eg, lg, rg⟩ := hf
  rw [Field.inBounds_iff]
  simp only [Field.read, eg] at h
  split_ifs at h with h1
  split at h
  · cases h
  · rename_i row hrow
    split at h
    · cases h
    · rename_i y hy
      have hc := (List.getElem?_eq_some_iff.mp hy).1
      obtain ⟨hr, hr2⟩ := List.getElem?_eq_some_iff.mp hrow
      have := rg row (hr2 ▸ List.getElem_mem hr)
      omega

theorem wrapInt32_of_fits (x : Int) (h1 : -2147483648 ≤ x) (h2 : x ≤ 2147483647) :
    wrapInt32 x = x := by
  unfold wrapInt32
  omega

theorem wrapInt32_mul_of_fits (rows columns : Int) (hr : 2 ≤ rows) (hc : 2 ≤ columns)
    (hfit : rows * columns ≤ 2147483647) : wrapInt32 (rows * columns) = rows * columns := by
  have hpos : 0 ≤ rows * columns := Int.mul_nonneg (by omega) (by omega)
  exact wrapInt32_of_fits _ (by omega) hfit

theorem Field.alloc_allocated {f : Field} (hv : f.Valid)
    (hs : f.mineCount < wrapInt32 (f.rows * f.columns)) (heap : Nat → Nat → Cell) :
    (f.Alloc heap).Allocated ∧ f.SameDims (f.Alloc heap) := by
  obtain ⟨v1, v2, v3, v4⟩ := hv
  have hcond : ¬ (f.rows < 2 ∨ f.columns < 2 ∨ f.mineCount < 2
      ∨ wrapInt32 (f.rows * f.columns) ≤ f.mineCount) := by omega
  unfold Field.Alloc
  rw [if_neg hcond]
  refine ⟨⟨_, rfl, by simp, ?_⟩, ⟨rfl, rfl, rfl⟩⟩
  intro row hrow
  simp only [List.mem_map] at hrow
  obtain ⟨_, _, rfl⟩ := hrow
  simp

theorem Field.resetCells_congr {f1 f2 : Field} (h1 : f1.Allocated) (h2 : f2.Allocated)
    (D : f1.SameDims f2) : f1.resetCells = f2.resetCells := by
  obtain ⟨g1, e1, D1, a1, c1⟩ := Field.resetCells_spec h1
  obtain ⟨g2, e2, D2, a2, c2⟩ := Field.resetCells_spec h2
  rw [e1, e2]
  congr 1
  have D12 : g1.SameDims g2 :=
    ⟨by rw [D2.1, D1.1, D.1], by rw [D2.2.1, D1.2.1, D.2.1], by rw [D2.2.2, D1.2.2, D.2.2]⟩
  apply Field.ext_cells a1 a2 D12
  intro i j hij
  rw [D1.inBounds] at hij
  rw [c1 i j hij, c2 i j (by rw [D.inBounds]; exact hij)]

/-! ## The claims -/

theorem sampleField_valid : sampleField.Valid :=
  ⟨by decide, by decide, by decide, by decide⟩

theorem sampleField_allocated : sampleField.Allocated :=
  ⟨_, rfl, rfl, by decide⟩

/-- Claim C1.  On a valid field (`rows ≥ 2`, `columns ≥ 2`,
`2 ≤ mineCount < rows * columns`) with an allocated grid, whenever
`PopulateMines` returns, for whatever random draws, exactly `mineCount` cells of
the resulting grid have `trapped = true` (and `rows`, `columns`, `mineCount` are
unchanged). -/
theorem populateMines_trappedCount (f g : Field) (draws : List Nat)
    (hv : f.Valid) (hf : f.Allocated) (h : f.PopulateMines draws = .ok g) :
    f.SameDims g ∧ (g.trappedCount : Int) = f.mineCount := by
  obtain ⟨_, D, hc⟩ := Field.populateMines_spec hf hv draws h
  exact ⟨D, by rw [hc, D.2.2]⟩

theorem populateMines_trappedCount_witness :
    ∃ g, sampleField.PopulateMines [0, 0, 0, 0, 1, 1] = .ok g
      ∧ (g.trappedCount : Int) = sampleField.mineCount :=
  ⟨_, rfl, (populateMines_trappedCount sampleField _ [0, 0, 0, 0, 1, 1]
    sampleField_valid sampleField_allocated rfl).2⟩

/-- Claim C2.  On a valid field with an allocated grid, whenever
`PopulateMines` returns, every in-bounds cell `(r, c)` of the resulting grid
can be read, and when it is not trapped its `danger` is the number of trapped
cells among its in-bounds Moore neighbours. -/
theorem populateMines_danger (f g : Field) (draws : List Nat)
    (hv : f.Valid) (hf : f.Allocated) (h : f.PopulateMines draws = .ok g)
    (r c : Int) (hrc : g.InBounds r c = true) :
    ∃ x, g.read r c = .ok x
      ∧ (x.trapped = false → x.danger = (g.trappedNeighbours r c : Int)) := by
  obtain ⟨hp, _, _⟩ := Field.populateMines_spec hf hv draws h
  exact ⟨_, Field.read_of_inBounds hp.1 hrc, (hp.2 r c hrc).2.2.2.2⟩

theorem populateMines_danger_witness :
    ∃ g x, sampleField.PopulateMines [0, 0, 0, 0, 1, 1] = .ok g ∧ g.read 0 1 = .ok x
      ∧ (x.trapped = false → x.danger = (g.trappedNeighbours 0 1 : Int)) := by
  obtain ⟨x, h1, h2⟩ := populateMines_danger sampleField _ [0, 0, 0, 0, 1, 1]
    sampleField_valid sampleField_allocated rfl 0 1 rfl
  exact ⟨_, x, rfl, h1, h2⟩

theorem Field.Valid.of_sameDims {f g : Field} (hv : f.Valid) (D : f.SameDims g) : g.Valid := by
  unfold Field.Valid at *
  rw [D.1, D.2.1, D.2.2]
  exact hv

theorem clickOnCell_first (rolls : List (List Nat)) :
    ∀ (f : Field), f.Valid → f.Populated → ∀ (r c : Int), f.InBounds r c = true →
    ∀ g1, ClickOnCell rolls { field := f, state := .RunningState, unlocks := 0 }
        SDL_BUTTON_LEFT r c = .ok g1 →
      (∃ x, g1.field.read r c = .ok x ∧ x.locked = false ∧ x.trapped = false)
        ∧ g1.state = .RunningState ∧ g1.unlocks = 1 := by
  induction rolls with
  | nil =>
    intro f hv hp r c hrc g1 h
    obtain ⟨p1, p2, _⟩ := hp.2 r c hrc
    obtain ⟨f1, e1, D1, a1, c1⟩ := Field.write_spec hp.1 hrc { f.cell r c with locked := false }
    rw [ClickOnCell] at h
    simp only [Field.read_of_inBounds hp.1 hrc, if_true] at h
    rw [if_pos ⟨p1, p2⟩] at h
    simp only [e1] at h
    split_ifs at h with h1 h2
    · exfalso; omega
    · cases h
      exact ⟨⟨{ f.cell r c with locked := false }, by rw [c1]; simp, rfl, by simpa using h1⟩,
        rfl, rfl⟩
  | cons draws rest ih =>
    intro f hv hp r c hrc g1 h
    obtain ⟨p1, p2, _⟩ := hp.2 r c hrc
    obtain ⟨f1, e1, D1, a1, c1⟩ := Field.write_spec hp.1 hrc { f.cell r c with locked := false }
    rw [ClickOnCell] at h
    simp only [Field.read_of_inBounds hp.1 hrc, if_true] at h
    rw [if_pos ⟨p1, p2⟩] at h
    simp only [e1] at h
    split_ifs at h with h1 h2
    · split at h
      · cases h
      · rename_i f2 e2
        obtain ⟨hp2, D2, _⟩ := Field.populateMines_spec a1 (hv.of_sameDims D1) draws e2
        exact ih f2 (hv.of_sameDims (D1.trans D2)) hp2 r c
          (by rw [(D1.trans D2).inBounds]; exact hrc) g1 h
    · exfalso; omega
    · cases h
      exact ⟨⟨{ f.cell r c with locked := false }, by rw [c1]; simp, rfl, by simpa using h1⟩,
        rfl, rfl⟩

/-- Claim C3.  In a fresh session (a valid field just populated by
`PopulateMines`, state `Running`, `unlocks = 0`), when the first call of
`ClickOnCell` is a left-button click on an in-bounds cell `(r, c)`, trapped or
not, then whenever the call returns the cell `(r, c)` is unlocked and not
trapped and the state is still `Running`. -/
theorem first_click_never_a_mine (f0 f : Field) (draws : List Nat) (rolls : List (List Nat))
    (r c : Int) (g1 : Game) (hv : f0.Valid) (ha : f0.Allocated)
    (hpop : f0.PopulateMines draws = .ok f) (hrc : f.InBounds r c = true)
    (hclick : ClickOnCell rolls { field := f, state := .RunningState, unlocks := 0 }
      SDL_BUTTON_LEFT r c = .ok g1) :
    (∃ x, g1.field.read r c = .ok x ∧ x.locked = false ∧ x.trapped = false)
      ∧ g1.state = .RunningState := by
  obtain ⟨hp, D, _⟩ := Field.populateMines_spec ha hv draws hpop
  have := clickOnCell_first rolls f (hv.of_sameDims D) hp r c hrc g1 hclick
  exact ⟨this.1, this.2.1⟩

theorem first_click_never_a_mine_witness :
    (∃ x, firstClickGame.field.read 0 0 = .ok x ∧ x.locked = false ∧ x.trapped = false)
      ∧ firstClickGame.state = .RunningState :=
  first_click_never_a_mine sampleField minedField [0, 0, 1, 1]
    [[0, 0, 1, 1], [1, 0, 0, 1]] 0 0 firstClickGame sampleField_valid sampleField_allocated
    rfl rfl (by decide!)

/-- Claim C7.  On a valid field with an allocated grid, `PopulateMines` resets
every cell first: two grids of the same `rows`, `columns` and `mineCount` give
the same run for the same draws whatever their cells held before, and when the
run returns every cell of the result is locked and unflagged. -/
theorem populateMines_resets (f1 f2 : Field) (draws : List Nat) (hv : f1.Valid)
    (h1 : f1.Allocated) (h2 : f2.Allocated) (D : f1.SameDims f2) :
    f1.PopulateMines draws = f2.PopulateMines draws
      ∧ ∀ g, f1.PopulateMines draws = .ok g → ∀ r c, g.InBounds r c = true →
          ∃ x, g.read r c = .ok x ∧ x.locked = true ∧ x.flagged = false := by
  constructor
  · unfold Field.PopulateMines
    rw [Field.resetCells_congr h1 h2 D]
  · intro g hg r c hrc
    obtain ⟨hp, _, _⟩ := Field.populateMines_spec h1 hv draws hg
    obtain ⟨p1, p2, _⟩ := hp.2 r c hrc
    exact ⟨_, Field.read_of_inBounds hp.1 hrc, p1, p2⟩

theorem populateMines_resets_witness :
    sampleField.PopulateMines [0, 0, 1, 1] = playedField.PopulateMines [0, 0, 1, 1]
      ∧ ∀ g, sampleField.PopulateMines [0, 0, 1, 1] = .ok g → ∀ r c, g.InBounds r c = true →
          ∃ x, g.read r c = .ok x ∧ x.locked = true ∧ x.flagged = false :=
  populateMines_resets sampleField playedField [0, 0, 1, 1] sampleField_valid
    sampleField_allocated ⟨_, rfl, rfl, by decide⟩ ⟨rfl, rfl, rfl⟩

/-- Claim C5, refuted as stated.  For `rows = columns = 46341` and
`mineCount = 2` none of `rows < 2`, `columns < 2`, `mineCount < 2`,
`rows * columns ≤ mineCount` holds of the integers, yet `Alloc` (of `Field` and
of `MineField`) leaves the grid null: the product `2147488281` does not fit the
`int` in which the test takes it. -/
theorem alloc_rejects_overflowing_product :
    ¬ ((Field.Alloc { rows := 46341, columns := 46341, mineCount := 2 }
          (fun _ _ => staleCell)).grid = none
        ↔ ((46341 : Int) < 2 ∨ (46341 : Int) < 2 ∨ (2 : Int) < 2
            ∨ (46341 : Int) * 46341 ≤ 2))
    ∧ ¬ ((MineField.Alloc { rows := 46341, columns := 46341, mineCount := 2 }).grid = none
        ↔ ((46341 : Int) < 2 ∨ (46341 : Int) < 2 ∨ (2 : Int) < 2
            ∨ (46341 : Int) * 46341 ≤ 2)) :=
  ⟨fun h => absurd (h.mp rfl) (by decide), fun h => absurd (h.mp rfl) (by decide)⟩

/-- Claim C5, amended.  For all `rows`, `columns` and `mineCount` whose product
`rows * columns` does not exceed the largest `int`, 2147483647: started on a
null grid, `Alloc` (of `Field` and of `MineField`) leaves the grid null if and
only if `rows < 2` or `columns < 2` or `mineCount < 2` or
`rows * columns ≤ mineCount`; on every other such configuration the grid is a
block of exactly `rows` rows of `columns` cells each. -/
theorem alloc_null_iff (rows columns mineCount : Int) (heap : Nat → Nat → Cell)
    (hfit : rows * columns ≤ 2147483647) :
    (((Field.Alloc { rows := rows, columns := columns, mineCount := mineCount } heap).grid = none
        ↔ (rows < 2 ∨ columns < 2 ∨ mineCount < 2 ∨ rows * columns ≤ mineCount))
      ∧ ((MineField.Alloc { rows := rows, columns := columns, mineCount := mineCount }).grid = none
        ↔ (rows < 2 ∨ columns < 2 ∨ mineCount < 2 ∨ rows * columns ≤ mineCount)))
    ∧ (¬ (rows < 2 ∨ columns < 2 ∨ mineCount < 2 ∨ rows * columns ≤ mineCount) →
        (∃ g, (Field.Alloc { rows := rows, columns := columns, mineCount := mineCount } heap).grid
            = some g ∧ (g.length : Int) = rows ∧ ∀ row ∈ g, (row.length : Int) = columns)
        ∧ (∃ g, (MineField.Alloc { rows := rows, columns := columns, mineCount := mineCount }).grid
            = some g ∧ (g.length : Int) = rows ∧ ∀ row ∈ g, (row.length : Int) = columns)) := by
  by_cases hbad : rows < 2 ∨ columns < 2 ∨ mineCount < 2 ∨ rows * columns ≤ mineCount
  · have hcode : rows < 2 ∨ columns < 2 ∨ mineCount < 2
        ∨ wrapInt32 (rows * columns) ≤ mineCount := by
      by_cases hsmall : rows < 2 ∨ columns < 2 ∨ mineCount < 2
      · omega
      · rw [wrapInt32_mul_of_fits rows columns (by omega) (by omega) hfit]
        omega
    simp [Field.Alloc, MineField.Alloc, hbad, hcode]
  · have hr : 2 ≤ rows := by omega
    have hc : 2 ≤ columns := by omega
    have hcode : ¬ (rows < 2 ∨ columns < 2 ∨ mineCount < 2
        ∨ wrapInt32 (rows * columns) ≤ mineCount) := by
      rw [wrapInt32_mul_of_fits rows columns hr hc hfit]
      exact hbad
    refine ⟨⟨by simp [Field.Alloc, hbad, hcode], by simp [MineField.Alloc, hbad, hcode]⟩,
      fun _ => ⟨?_, ?_⟩⟩
    · refine ⟨_, by simp only [Field.Alloc, if_neg hcode]; rfl, ?_, ?_⟩
      · simp only [List.length_map, List.length_range]; omega
      · intro row hrow
        simp only [List.mem_map] at hrow
        obtain ⟨_, _, rfl⟩ := hrow
        simp only [List.length_map, List.length_range]; omega
    · refine ⟨_, by simp only [MineField.Alloc, if_neg hcode]; rfl, ?_, ?_⟩
      · simp only [List.length_map, List.length_range]; omega
      · intro row hrow
        simp only [List.mem_map] at hrow
        obtain ⟨_, _, rfl⟩ := hrow
        simp only [List.length_map, List.length_range]; omega

theorem alloc_null_iff_witness :
    (∃ g, (Field.Alloc { rows := 12, columns := 10, mineCount := 20 } (fun _ _ => staleCell)).grid
        = some g ∧ (g.length : Int) = 12 ∧ ∀ row ∈ g, (row.length : Int) = 10)
    ∧ (Field.Alloc singleRowField (fun _ _ => staleCell)).grid = none :=
  ⟨((alloc_null_iff 12 10 20 (fun _ _ => staleCell) (by decide)).2 (by decide)).1,
    (alloc_null_iff 1 10 20 (fun _ _ => staleCell) (by decide)).1.1.mpr (Or.inl (by decide))⟩

/-- Claim C6, the run that breaks it.  On the rejected configuration
`rows = 1, columns = 10, mineCount = 20` the grid stays null after `Alloc`, and
`BeginGameLoop` goes on to `PopulateMines`, whose first reset store
`grid[0][0] = ...` dereferences the null grid. -/
theorem beginGameLoop_singleRow_nullDeref (heap : Nat → Nat → Cell) (draws : List Nat)
    (texturesLoad : Bool) (frames : List (List (Event × List (List Nat)))) :
    (singleRowField.Alloc heap).grid = none
      ∧ BeginGameLoop singleRowField heap draws texturesLoad frames = .error .nullDeref :=
  ⟨rfl, rfl⟩

/-- Claim C8, refuted as stated.  After a successful `Alloc` the cells are not
in the state `locked = true, flagged = false, trapped = false, danger = 0`:
`MineField::Alloc` stores `locked = false`, and `Field::Alloc` stores nothing,
so the cells hold what the memory held. -/
theorem alloc_cells_not_fresh :
    ¬ (∀ r c x, (MineField.Alloc { rows := 2, columns := 2, mineCount := 2 }).read r c = .ok x →
        x = freshCell)
    ∧ ¬ (∀ r c x, (Field.Alloc { rows := 2, columns := 2, mineCount := 2 }
        (fun _ _ => staleCell)).read r c = .ok x → x = freshCell) :=
  ⟨fun h => absurd (h 0 0 unlockedCell rfl) (by decide),
    fun h => absurd (h 0 0 staleCell rfl) (by decide)⟩

/-- Claim C8, amended.  For every valid configuration on which `Alloc`
succeeds, that is, whose `int` product `rows * columns` exceeds `mineCount` (as
it does whenever the product fits in `int`): after `MineField::Alloc` every
cell of the grid is `locked = false, flagged = false, trapped = false,
danger = 0`, and after `Field::Alloc` every cell holds what the allocated
memory held there. -/
theorem alloc_cells (f : Field) (heap : Nat → Nat → Cell) (hv : f.Valid)
    (hs : f.mineCount < wrapInt32 (f.rows * f.columns))
    (r c : Nat) (hr : (r : Int) < f.rows) (hc : (c : Int) < f.columns) :
    (MineField.Alloc f).read r c = .ok unlockedCell
      ∧ (f.Alloc heap).read r c = .ok (heap r c) := by
  obtain ⟨v1, v2, v3, v4⟩ := hv
  have hbad : ¬ (f.rows < 2 ∨ f.columns < 2 ∨ f.mineCount < 2
      ∨ wrapInt32 (f.rows * f.columns) ≤ f.mineCount) := by omega
  have h1 : ¬ ((r : Int) < 0 ∨ (c : Int) < 0) := by omega
  have h2 : r < f.rows.toNat := by omega
  have h3 : c < f.columns.toNat := by omega
  constructor
  · simp [MineField.Alloc, hbad, Field.read, h1, h2, h3, unlockedCell, List.getElem?_range]
  · simp [Field.Alloc, hbad, Field.read, h1, h2, h3, List.getElem?_range]

theorem alloc_cells_witness :
    (MineField.Alloc { rows := 12, columns := 10, mineCount := 20 }).read (3 : Nat) (4 : Nat)
        = .ok unlockedCell
      ∧ (Field.Alloc { rows := 12, columns := 10, mineCount := 20 }
          (fun _ _ => staleCell)).read (3 : Nat) (4 : Nat) = .ok staleCell :=
  alloc_cells { rows := 12, columns := 10, mineCount := 20 } (fun _ _ => staleCell)
    ⟨by decide, by decide, by decide, by decide⟩ (by decide) 3 4 (by decide) (by decide)

/-- Claim C4, the session that breaks it.  From the fresh session on the
populated sample field: a right click flags `(0, 1)`; a left click on the
flagged cell unlocks nothing but counts as an unlock; the next left click, on
`(0, 0)`, is the first one that unlocks a cell, the cell holds a mine, and
the game is lost instead of re-rolled. -/
theorem first_reveal_after_flagged_click_loses :
    sampleField.PopulateMines [0, 0, 1, 1] = .ok minedField
    ∧ ClickOnCell [] { field := minedField, state := .RunningState, unlocks := 0 }
        SDL_BUTTON_RIGHT 0 1 = .ok { field := flaggedField, state := .RunningState, unlocks := 0 }
    ∧ ClickOnCell [] { field := flaggedField, state := .RunningState, unlocks := 0 }
        SDL_BUTTON_LEFT 0 1 = .ok { field := flaggedField, state := .RunningState, unlocks := 1 }
    ∧ ClickOnCell [] { field := flaggedField, state := .RunningState, unlocks := 1 }
        SDL_BUTTON_LEFT 0 0 = .ok { field := lostField, state := .FailureState, unlocks := 2 }
    ∧ lostField.read 0 0
        = .ok { locked := false, flagged := false, trapped := true, danger := 0 } := by
  refine ⟨?_, ?_, ?_, ?_, ?_⟩ <;> decide!

/-- Claim C9, the click that breaks it.  A left click on the flagged cell
`(0, 1)`, and one on the unlocked cell `(0, 0)` of the first-click sample,
leave the grid and the state as they are but add one to `unlocks`. -/
theorem leftClick_on_flagged_counts_unlock :
    ClickOnCell [] { field := flaggedField, state := .RunningState, unlocks := 0 }
        SDL_BUTTON_LEFT 0 1 = .ok { field := flaggedField, state := .RunningState, unlocks := 1 }
    ∧ ClickOnCell [] firstClickGame SDL_BUTTON_LEFT 0 0
        = .ok { firstClickGame with unlocks := 2 } := by
  refine ⟨?_, ?_⟩ <;> decide!

/-- A left click on a cell that is unlocked or flagged leaves the field and the
state as they are, and adds one to `unlocks`. -/
theorem clickOnCell_left_guarded (rolls : List (List Nat)) (g : Game) (r c : Int) (x : Cell)
    (hx : g.field.read r c = .ok x) (hg : x.locked = false ∨ x.flagged = true) :
    ClickOnCell rolls g SDL_BUTTON_LEFT r c = .ok { g with unlocks := g.unlocks + 1 } := by
  have hn : ¬ (x.locked = true ∧ x.flagged = false) := by
    rcases hg with h | h <;> simp [h]
  rw [ClickOnCell]
  simp only [hx, if_true, if_neg hn]

/-- Claim C10.  On an allocated grid, for every game state and every cell
`(r, c)` that can be read: a right click on a locked cell returns the game with
the `flagged` bit of that cell negated and nothing else changed (every other
cell, `rows`, `columns`, `mineCount`, the state and `unlocks` are as before), a
second right click on it returns the original game exactly; and a right click on
an unlocked cell returns the game unchanged. -/
theorem rightClick_toggles_flag (rolls1 rolls2 : List (List Nat)) (g : Game) (r c : Int)
    (x : Cell) (ha : g.field.Allocated) (hx : g.field.read r c = .ok x) :
    (x.locked = true →
      ∃ g1, ClickOnCell rolls1 g SDL_BUTTON_RIGHT r c = .ok g1
        ∧ g1.state = g.state ∧ g1.unlocks = g.unlocks ∧ g.field.SameDims g1.field
        ∧ (∀ i j, g1.field.read i j =
            if i = r ∧ j = c then .ok { x with flagged := !x.flagged } else g.field.read i j)
        ∧ ClickOnCell rolls2 g1 SDL_BUTTON_RIGHT r c = .ok g)
    ∧ (x.locked = false → ClickOnCell rolls1 g SDL_BUTTON_RIGHT r c = .ok g) := by
  obtain ⟨hrc, hcell⟩ := Field.read_ok ha hx
  have hne : ¬ (SDL_BUTTON_RIGHT = SDL_BUTTON_LEFT) := by decide
  constructor
  · intro hl
    obtain ⟨l, fl, t, d⟩ := x
    simp only at hl
    subst hl
    obtain ⟨f1, e1, D1, a1, c1⟩ := Field.write_spec ha hrc
      { locked := true, flagged := !fl, trapped := t, danger := d }
    refine ⟨{ g with field := f1 }, ?_, rfl, rfl, D1, c1, ?_⟩
    · rw [ClickOnCell]
      simp only [hx, if_neg hne, if_true, e1]
    · have hr1 : f1.read r c
          = .ok { locked := true, flagged := !fl, trapped := t, danger := d } := by
        rw [c1]; simp
      have hw : f1.write r c { locked := true, flagged := fl, trapped := t, danger := d }
          = .ok g.field := by
        obtain ⟨f2, e2, D2, a2, c2⟩ := Field.write_cell a1 (by rw [D1.inBounds]; exact hrc)
          { locked := true, flagged := fl, trapped := t, danger := d }
        rw [e2]
        congr 1
        apply Field.ext_cells a2 ha
          ⟨(D1.trans D2).1.symm, (D1.trans D2).2.1.symm, (D1.trans D2).2.2.symm⟩
        intro i j _
        rw [c2]
        split_ifs with hij
        · rw [hij.1, hij.2, hcell]
        · unfold Field.cell
          rw [c1, if_neg hij]
      rw [ClickOnCell]
      simp only [hr1, if_neg hne, if_true, Bool.not_not, hw]
  · intro hl
    rw [ClickOnCell]
    simp only [hx, if_neg hne, if_true, hl]
    simp

theorem rightClick_toggles_flag_witness :
    (∃ g1, ClickOnCell [] { field := minedField, state := .RunningState, unlocks := 0 }
          SDL_BUTTON_RIGHT 0 1 = .ok g1
        ∧ g1.state = .RunningState ∧ g1.unlocks = 0 ∧ minedField.SameDims g1.field
        ∧ (∀ i j, g1.field.read i j =
            if i = 0 ∧ j = 1 then
              .ok { locked := true, flagged := true, trapped := false, danger := 2 }
            else minedField.read i j)
        ∧ ClickOnCell [] g1 SDL_BUTTON_RIGHT 0 1
            = .ok { field := minedField, state := .RunningState, unlocks := 0 })
    ∧ ClickOnCell [] firstClickGame SDL_BUTTON_RIGHT 0 0 = .ok firstClickGame :=
  ⟨(rightClick_toggles_flag [] [] { field := minedField, state := .RunningState, unlocks := 0 }
      0 1 { locked := true, flagged := false, trapped := false, danger := 2 }
      ⟨_, rfl, rfl, by decide⟩ rfl).1 rfl,
    (rightClick_toggles_flag [] [] firstClickGame 0 0
      { locked := false, flagged := false, trapped := false, danger := 2 }
      ⟨_, rfl, rfl, by decide⟩ rfl).2 rfl⟩

/-! ## Revealing the mines -/

theorem Field.revealRow_spec {f : Field} (hf : f.Allocated) (r : Nat) (hr : (r : Int) < f.rows) :
    ∃ g, f.revealRow r = .ok g ∧ f.SameDims g ∧ g.Allocated
      ∧ ∀ i j, f.InBounds i j = true → g.cell i j =
          if i = r ∧ (f.cell i j).trapped = true then { f.cell i j with locked := false }
          else f.cell i j := by
  obtain ⟨g, e, D, a, c⟩ := foldlM_range_inv
    (fun g (c : Nat) => do
      let cell ← g.read r c
      if cell.trapped then g.write r c { cell with locked := false } else pure g)
    (fun k g => f.SameDims g ∧ g.Allocated ∧ ∀ i j, g.cell i j =
      if i = r ∧ 0 ≤ j ∧ j < k ∧ (f.cell i j).trapped = true then
        { f.cell i j with locked := false }
      else f.cell i j)
    f.columns.toNat f
    ⟨Field.SameDims.refl f, hf, fun i j => by
      have : ¬ (i = r ∧ 0 ≤ j ∧ j < ((0 : Nat) : Int) ∧ (f.cell i j).trapped = true) := by omega
      rw [if_neg this]⟩
    (by
      rintro k s hk ⟨D, a, c⟩
      have hib : s.InBounds r k = true := by rw [D.inBounds, Field.inBounds_iff]; omega
      have hsame : s.cell r k = f.cell r k := by
        rw [c]
        have : ¬ ((r : Int) = r ∧ (0 : Int) ≤ k ∧ (k : Int) < k ∧ (f.cell r k).trapped = true) := by
          omega
        rw [if_neg this]
      simp only [Field.read_of_inBounds a hib, ok_bind, hsame]
      by_cases ht : (f.cell r k).trapped = true
      · obtain ⟨s1, e1, d1, a1, c1⟩ := Field.write_cell a hib { f.cell r k with locked := false }
        refine ⟨s1, by rw [if_pos ht]; exact e1, D.trans d1, a1, ?_⟩
        intro i j
        rw [c1, c]
        by_cases hij : i = r ∧ j = k
        · obtain ⟨rfl, rfl⟩ := hij
          have : ((r : Int) = r ∧ (0 : Int) ≤ k ∧ (k : Int) < ((k + 1 : Nat) : Int)
              ∧ (f.cell r k).trapped = true) := ⟨rfl, by omega, by omega, ht⟩
          rw [if_pos ⟨rfl, rfl⟩, if_pos this]
        · rw [if_neg hij]
          by_cases ht2 : (f.cell i j).trapped = true
          · simp only [ht2, and_true]
            split_ifs <;> first | rfl | (exfalso; omega)
          · simp only [ht2, and_false, if_false, Bool.false_eq_true]
      · refine ⟨s, by rw [if_neg ht]; rfl, D, a, ?_⟩
        intro i j
        rw [c]
        by_cases ht2 : (f.cell i j).trapped = true
        · simp only [ht2, and_true]
          have hne : ¬ (i = r ∧ j = k) := by
            rintro ⟨rfl, rfl⟩; exact ht ht2
          split_ifs <;> first | rfl | (exfalso; omega)
        · simp only [ht2, and_false, if_false, Bool.false_eq_true])
  refine ⟨g, ?_, D, a, ?_⟩
  · unfold Field.revealRow; exact e
  · intro i j hij
    rw [c]
    rw [Field.inBounds_iff] at hij
    by_cases ht2 : (f.cell i j).trapped = true
    · simp only [ht2, and_true]
      split_ifs <;> first | rfl | (exfalso; omega)
    · simp only [ht2, and_false, if_false, Bool.false_eq_true]

theorem Field.revealMines_spec {f : Field} (hf : f.Allocated) :
    ∃ g, f.RevealMines = .ok g ∧ f.SameDims g ∧ g.Allocated
      ∧ ∀ i j, f.InBounds i j = true → g.cell i j =
          if (f.cell i j).trapped = true then { f.cell i j with locked := false }
          else f.cell i j := by
  obtain ⟨g, e, D, a, c⟩ := foldlM_range_inv (fun g r => g.revealRow r)
    (fun k g => f.SameDims g ∧ g.Allocated ∧ ∀ i j, f.InBounds i j = true → g.cell i j =
      if i < k ∧ (f.cell i j).trapped = true then { f.cell i j with locked := false }
      else f.cell i j)
    f.rows.toNat f
    ⟨Field.SameDims.refl f, hf, fun i j hij => by
      rw [Field.inBounds_iff] at hij
      have : ¬ (i < ((0 : Nat) : Int) ∧ (f.cell i j).trapped = true) := by omega
      rw [if_neg this]⟩
    (by
      rintro k s hk ⟨D, a, c⟩
      obtain ⟨s1, e1, d1, a1, c1⟩ := Field.revealRow_spec a k (by rw [D.1]; omega)
      refine ⟨s1, e1, D.trans d1, a1, ?_⟩
      intro i j hij
      have hs := c i j hij
      rw [c1 i j (by rw [D.inBounds]; exact hij)]
      by_cases ht2 : (f.cell i j).trapped = true
      · by_cases hlt : i < (k : Int)
        · rw [if_pos ⟨hlt, ht2⟩] at hs
          have hlt2 : i < (k : Int) + 1 := by omega
          have hne : ¬ i = (k : Int) := by omega
          rw [hs]
          simp [hne, hlt2, ht2]
        · rw [if_neg (fun h => hlt h.1)] at hs
          rw [hs]
          by_cases hik : i = (k : Int)
          · simp [hik, ht2]
          · have hlt2 : ¬ i < (k : Int) + 1 := by omega
            simp [hik, hlt2]
      · rw [if_neg (fun h => ht2 h.2)] at hs
        rw [hs]
        simp [ht2])
  refine ⟨g, e, D, a, ?_⟩
  intro i j hij
  rw [c i j hij]
  rw [Field.inBounds_iff] at hij
  by_cases ht2 : (f.cell i j).trapped = true
  · simp only [ht2, and_true, if_true]
    split_ifs <;> first | rfl | (exfalso; omega)
  · simp only [ht2, and_false, if_false, Bool.false_eq_true]

/-! ## One call of `ClickOnCell` -/

theorem clickOnCell_state (rolls : List (List Nat)) :
    ∀ (g : Game) (button r c : Int) (g1 : Game),
      ClickOnCell rolls g button r c = .ok g1 →
      g1.state = g.state ∨ g1.state = .FailureState := by
  induction rolls with
  | nil =>
    intro g button r c g1 h
    rw [ClickOnCell] at h
    split at h
    · cases h
    · rename_i cell hread
      by_cases hb : button = SDL_BUTTON_LEFT
      · rw [if_pos hb] at h
        by_cases hg : cell.locked = true ∧ cell.flagged = false
        · rw [if_pos hg] at h
          split at h
          · cases h
          · by_cases ht : cell.trapped = true
            · rw [if_pos ht] at h
              by_cases hu : g.unlocks + 1 < 2
              · rw [if_pos hu] at h; cases h
              · rw [if_neg hu] at h
                split at h
                · cases h
                · cases h; exact Or.inr rfl
            · rw [if_neg ht] at h; cases h; exact Or.inl rfl
        · rw [if_neg hg] at h; cases h; exact Or.inl rfl
      · rw [if_neg hb] at h
        by_cases hb2 : button = SDL_BUTTON_RIGHT
        · rw [if_pos hb2] at h
          by_cases hl : cell.locked = true
          · rw [if_pos hl] at h
            split at h
            · cases h
            · cases h; exact Or.inl rfl
          · rw [if_neg hl] at h; cases h; exact Or.inl rfl
        · rw [if_neg hb2] at h; cases h; exact Or.inl rfl
  | cons draws rest ih =>
    intro g button r c g1 h
    rw [ClickOnCell] at h
    split at h
    · cases h
    · rename_i cell hread
      by_cases hb : button = SDL_BUTTON_LEFT
      · rw [if_pos hb] at h
        by_cases hg : cell.locked = true ∧ cell.flagged = false
        · rw [if_pos hg] at h
          split at h
          · cases h
          · by_cases ht : cell.trapped = true
            · rw [if_pos ht] at h
              by_cases hu : g.unlocks + 1 < 2
              · rw [if_pos hu] at h
                simp only at h
                split at h
                · cases h
                · have h2 := ih _ _ _ _ _ h
                  exact h2
              · rw [if_neg hu] at h
                split at h
                · cases h
                · cases h; exact Or.inr rfl
            · rw [if_neg ht] at h; cases h; exact Or.inl rfl
        · rw [if_neg hg] at h; cases h; exact Or.inl rfl
      · rw [if_neg hb] at h
        by_cases hb2 : button = SDL_BUTTON_RIGHT
        · rw [if_pos hb2] at h
          by_cases hl : cell.locked = true
          · rw [if_pos hl] at h
            split at h
            · cases h
            · cases h; exact Or.inl rfl
          · rw [if_neg hl] at h; cases h; exact Or.inl rfl
        · rw [if_neg hb2] at h; cases h; exact Or.inl rfl

theorem clickOnCell_step (rolls : List (List Nat)) (g : Game) (button r c : Int)
    (ha : g.field.Allocated) (hrc : g.field.InBounds r c = true)
    (hno : ¬ g.Rerolls button r c) :
    ∃ g1, ClickOnCell rolls g button r c = .ok g1
      ∧ g.field.SameDims g1.field ∧ g1.field.Allocated
      ∧ (g.Loses button r c → g1.state = .FailureState)
      ∧ (¬ g.Loses button r c → g1.state = g.state)
      ∧ g1.unlocks = (if button = SDL_BUTTON_LEFT then g.unlocks + 1 else g.unlocks)
      ∧ ∀ i j, g.field.InBounds i j = true → g1.field.cell i j =
          clickedCell button (g.field.cell r c) (decide (i = r ∧ j = c)) (g.field.cell i j) := by
  have hread := Field.read_of_inBounds ha hrc
  by_cases hb : button = SDL_BUTTON_LEFT
  · by_cases hg : (g.field.cell r c).locked = true ∧ (g.field.cell r c).flagged = false
    · obtain ⟨f1, e1, D1, a1, c1⟩ := Field.write_cell ha hrc
        { g.field.cell r c with locked := false }
      by_cases ht : (g.field.cell r c).trapped = true
      · have hu : ¬ g.unlocks + 1 < 2 := fun hu => hno ⟨hb, hg.1, hg.2, ht, hu⟩
        obtain ⟨f2, e2, D2, a2, c2⟩ := Field.revealMines_spec a1
        refine ⟨{ field := f2, state := .FailureState, unlocks := g.unlocks + 1 }, ?_,
          D1.trans D2, a2, fun _ => rfl,
          fun h => absurd ⟨hb, hg.1, hg.2, ht, hu⟩ h, ?_, ?_⟩
        · rw [ClickOnCell]
          simp only [hread, if_pos hb, if_pos hg, e1, if_pos ht, if_neg hu, e2]
        · rw [if_pos hb]
        · intro i j hij
          show f2.cell i j = _
          rw [c2 i j (by rw [D1.inBounds]; exact hij), c1]
          unfold clickedCell
          rw [if_pos hb, if_pos hg]
          by_cases hit : i = r ∧ j = c
          · obtain ⟨rfl, rfl⟩ := hit
            simp [ht]
          · simp [hit, ht]
      · refine ⟨{ g with field := f1, unlocks := g.unlocks + 1 }, ?_, D1, a1,
          fun h => absurd h.2.2.2.1 ht, fun _ => rfl, ?_, ?_⟩
        · rw [ClickOnCell]
          simp only [hread, if_pos hb, if_pos hg, e1, if_neg ht]
        · rw [if_pos hb]
        · intro i j hij
          show f1.cell i j = _
          rw [c1]
          unfold clickedCell
          rw [if_pos hb, if_pos hg]
          by_cases hit : i = r ∧ j = c
          · obtain ⟨rfl, rfl⟩ := hit
            simp
          · simp [hit, ht]
    · refine ⟨{ g with unlocks := g.unlocks + 1 }, ?_, Field.SameDims.refl _, ha,
        fun h => absurd ⟨h.2.1, h.2.2.1⟩ hg, fun _ => rfl, ?_, ?_⟩
      · rw [ClickOnCell]
        simp only [hread, if_pos hb, if_neg hg]
      · rw [if_pos hb]
      · intro i j hij
        unfold clickedCell
        rw [if_pos hb, if_neg hg]
  · have hnl : ¬ g.Loses button r c := fun h => hb h.1
    by_cases hb2 : button = SDL_BUTTON_RIGHT
    · by_cases hl : (g.field.cell r c).locked = true
      · obtain ⟨f1, e1, D1, a1, c1⟩ := Field.write_cell ha hrc
          { g.field.cell r c with flagged := !(g.field.cell r c).flagged }
        refine ⟨{ g with field := f1 }, ?_, D1, a1, fun h => absurd h hnl, fun _ => rfl, ?_, ?_⟩
        · rw [ClickOnCell]
          simp only [hread, if_neg hb, if_pos hb2, if_pos hl, e1]
        · rw [if_neg hb]
        · intro i j hij
          show f1.cell i j = _
          rw [c1]
          unfold clickedCell
          rw [if_neg hb, if_pos hb2]
          by_cases hit : i = r ∧ j = c
          · obtain ⟨rfl, rfl⟩ := hit
            simp [hl]
          · simp [hit]
      · refine ⟨g, ?_, Field.SameDims.refl _, ha, fun h => absurd h hnl, fun _ => rfl, ?_, ?_⟩
        · rw [ClickOnCell]
          simp only [hread, if_neg hb, if_pos hb2, if_neg hl]
        · rw [if_neg hb]
        · intro i j hij
          unfold clickedCell
          rw [if_neg hb, if_pos hb2, if_neg (fun h => hl h.1)]
    · refine ⟨g, ?_, Field.SameDims.refl _, ha, fun h => absurd h hnl, fun _ => rfl, ?_, ?_⟩
      · rw [ClickOnCell]
        simp only [hread, if_neg hb, if_neg hb2]
      · rw [if_neg hb]
      · intro i j hij
        unfold clickedCell
        rw [if_neg hb, if_neg hb2]

theorem clickOnCell_reroll (g : Game) (button r c : Int)
    (ha : g.field.Allocated) (hrc : g.field.InBounds r c = true)
    (hre : g.Rerolls button r c) :
    ∃ f1, g.field.SameDims f1 ∧ f1.Allocated
      ∧ ClickOnCell [] g button r c = .error .noMoreDraws
      ∧ ∀ draws rest g1, ClickOnCell (draws :: rest) g button r c = .ok g1 →
          ∃ f2, f1.PopulateMines draws = .ok f2
            ∧ ClickOnCell rest { g with field := f2, unlocks := 0 } button r c = .ok g1 := by
  obtain ⟨hb, h1, h2, h3, h4⟩ := hre
  have hread := Field.read_of_inBounds ha hrc
  obtain ⟨f1, e1, D1, a1, _⟩ := Field.write_cell ha hrc { g.field.cell r c with locked := false }
  refine ⟨f1, D1, a1, ?_, ?_⟩
  · rw [ClickOnCell]
    simp only [hread, if_pos hb, if_pos (And.intro h1 h2), e1, if_pos h3, if_pos h4]
  · intro draws rest g1 h
    rw [ClickOnCell] at h
    simp only [hread, if_pos hb, if_pos (And.intro h1 h2), e1, if_pos h3, if_pos h4] at h
    split at h
    · cases h
    · rename_i f2 e2
      exact ⟨f2, e2, h⟩

/-! ## The invariant of a session -/

theorem Game.Inv.of_populated {f : Field} (hv : f.Valid) (hp : f.Populated)
    (state : State) (hs : state = .RunningState) (unlocks : Int) :
    Game.Inv { field := f, state := state, unlocks := unlocks } := by
  subst hs
  refine ⟨hv, hp.1, (fun h => by cases h), ?_⟩
  intro i j hij
  obtain ⟨p1, p2, p3, p4, _⟩ := hp.2 i j hij
  refine ⟨p3, p4, ?_, ?_⟩
  · intro hf
    simp only at hf
    rw [p2] at hf
    cases hf
  · intro h
    cases h

theorem Game.Inv.of_step {g g1 : Game} {button r c : Int} (hinv : g.Inv)
    (hs : g.state = .RunningState) (hno : ¬ g.Rerolls button r c)
    (D : g.field.SameDims g1.field) (a1 : g1.field.Allocated)
    (hl : g.Loses button r c → g1.state = .FailureState)
    (hnl : ¬ g.Loses button r c → g1.state = g.state)
    (hc : ∀ i j, g.field.InBounds i j = true → g1.field.cell i j =
      clickedCell button (g.field.cell r c) (decide (i = r ∧ j = c)) (g.field.cell i j)) :
    g1.Inv ∧ (g1.state = .RunningState ∨ (g1.state = .FailureState ∧ g.Loses button r c)) := by
  obtain ⟨hv, ha, _, hcells⟩ := hinv
  have hstate : g1.state = .RunningState ∨ (g1.state = .FailureState ∧ g.Loses button r c) := by
    by_cases hL : g.Loses button r c
    · exact Or.inr ⟨hl hL, hL⟩
    · exact Or.inl (by rw [hnl hL, hs])
  refine ⟨⟨hv.of_sameDims D, a1, ?_, ?_⟩, hstate⟩
  · rcases hstate with h | h
    · rw [h]; decide
    · rw [h.1]; decide
  · intro i j hij
    rw [D.inBounds] at hij
    obtain ⟨q1, q2, q3, _⟩ := hcells i j hij
    have q3' : (g.field.cell i j).flagged = true → (g.field.cell i j).locked = true := by
      intro hf
      rcases q3 hf with h | h
      · exact h
      · exact absurd hs h.2
    rw [hc i j hij]
    by_cases hit : i = r ∧ j = c
    · obtain ⟨rfl, rfl⟩ := hit
      unfold clickedCell
      by_cases hb : button = SDL_BUTTON_LEFT
      · rw [if_pos hb]
        by_cases hg : (g.field.cell i j).locked = true ∧ (g.field.cell i j).flagged = false
        · rw [if_pos hg]
          rw [if_pos (Or.inl (by simp))]
          refine ⟨q1, q2, ?_, fun _ _ => rfl⟩
          intro hf
          rw [hg.2] at hf
          cases hf
        · rw [if_neg hg]
          refine ⟨q1, q2, fun hf => Or.inl (q3' hf), ?_⟩
          intro hF
          rcases hstate with h | h
          · rw [h] at hF; cases hF
          · exact absurd ⟨h.2.2.1, h.2.2.2.1⟩ hg
      · rw [if_neg hb]
        have hnL : ¬ g.Loses button i j := fun h => hb h.1
        have hst : g1.state = .RunningState := by rw [hnl hnL, hs]
        by_cases hb2 : button = SDL_BUTTON_RIGHT
        · rw [if_pos hb2]
          by_cases hlk : (g.field.cell i j).locked = true
          · rw [if_pos ⟨hlk, by simp⟩]
            refine ⟨q1, q2, fun _ => Or.inl hlk, ?_⟩
            intro hF
            rw [hst] at hF; cases hF
          · rw [if_neg (fun h => hlk h.1)]
            refine ⟨q1, q2, fun hf => Or.inl (q3' hf), ?_⟩
            intro hF
            rw [hst] at hF; cases hF
        · rw [if_neg hb2]
          refine ⟨q1, q2, fun hf => Or.inl (q3' hf), ?_⟩
          intro hF
          rw [hst] at hF; cases hF
    · unfold clickedCell
      have hd : decide (i = r ∧ j = c) = false := by simp [hit]
      rw [hd]
      by_cases hL : g.Loses button r c
      · obtain ⟨hb, l1, l2, l3, l4⟩ := hL
        rw [if_pos hb, if_pos ⟨l1, l2⟩]
        by_cases ht : (g.field.cell i j).trapped = true
        · have : (false = true ∨ (g.field.cell r c).trapped = true
              ∧ (g.field.cell i j).trapped = true) := Or.inr ⟨l3, ht⟩
          rw [if_pos this]
          refine ⟨q1, q2, fun _ => Or.inr ⟨ht, ?_⟩, fun _ _ => rfl⟩
          rw [hl ⟨hb, l1, l2, l3, l4⟩]; decide
        · have : ¬ (false = true ∨ (g.field.cell r c).trapped = true
              ∧ (g.field.cell i j).trapped = true) := by
            rintro (h | h)
            · cases h
            · exact ht h.2
          rw [if_neg this]
          exact ⟨q1, q2, fun hf => Or.inl (q3' hf), fun _ h => absurd h ht⟩
      · have hst : g1.state = .RunningState := by rw [hnl hL, hs]
        have hsame : clickedCell button (g.field.cell r c) false (g.field.cell i j)
            = g.field.cell i j := by
          unfold clickedCell
          by_cases hb : button = SDL_BUTTON_LEFT
          · rw [if_pos hb]
            by_cases hg : (g.field.cell r c).locked = true ∧ (g.field.cell r c).flagged = false
            · rw [if_pos hg]
              have : ¬ (false = true ∨ (g.field.cell r c).trapped = true
                  ∧ (g.field.cell i j).trapped = true) := by
                rintro (h | h)
                · cases h
                · by_cases hu : g.unlocks + 1 < 2
                  · exact hno ⟨hb, hg.1, hg.2, h.1, hu⟩
                  · exact hL ⟨hb, hg.1, hg.2, h.1, hu⟩
              rw [if_neg this]
            · rw [if_neg hg]
          · rw [if_neg hb]
            by_cases hb2 : button = SDL_BUTTON_RIGHT
            · rw [if_pos hb2]
              have : ¬ ((g.field.cell r c).locked = true ∧ false = true) := fun h => by cases h.2
              rw [if_neg this]
            · rw [if_neg hb2]
        unfold clickedCell at hsame
        rw [hsame]
        refine ⟨q1, q2, fun hf => Or.inl (q3' hf), ?_⟩
        intro hF
        rw [hst] at hF; cases hF

theorem Game.Inv.click (rolls : List (List Nat)) :
    ∀ (g : Game) (button r c : Int) (g1 : Game), g.Inv → g.state = .RunningState →
      g.field.InBounds r c = true → ClickOnCell rolls g button r c = .ok g1 →
      g1.Inv ∧ (g1.state = .RunningState ∨ (g1.state = .FailureState ∧ g.Loses button r c)) := by
  induction rolls with
  | nil =>
    intro g button r c g1 hinv hs hrc h
    by_cases hre : g.Rerolls button r c
    · obtain ⟨f1, _, _, e, _⟩ := clickOnCell_reroll g button r c hinv.2.1 hrc hre
      rw [e] at h; cases h
    · obtain ⟨g2, e, D, a, hl, hnl, _, hc⟩ := clickOnCell_step [] g button r c hinv.2.1 hrc hre
      rw [e] at h; cases h
      exact Game.Inv.of_step hinv hs hre D a hl hnl hc
  | cons draws rest ih =>
    intro g button r c g1 hinv hs hrc h
    by_cases hre : g.Rerolls button r c
    · obtain ⟨f1, D1, a1, _, e⟩ := clickOnCell_reroll g button r c hinv.2.1 hrc hre
      obtain ⟨f2, e2, h2⟩ := e draws rest g1 h
      obtain ⟨hp, D2, _⟩ := Field.populateMines_spec a1 (hinv.1.of_sameDims D1) draws e2
      have hv2 := hinv.1.of_sameDims (D1.trans D2)
      have hi2 : Game.Inv { g with field := f2, unlocks := 0 } :=
        Game.Inv.of_populated hv2 hp g.state hs 0
      obtain ⟨i1, i2⟩ := ih _ button r c g1 hi2 hs
        (by show f2.InBounds r c = true; rw [(D1.trans D2).inBounds]; exact hrc) h2
      refine ⟨i1, ?_⟩
      rcases i2 with h3 | h3
      · exact Or.inl h3
      · exfalso
        have := h3.2.2.2.2.2
        simp at this
    · obtain ⟨g2, e, D, a, hl, hnl, _, hc⟩ :=
        clickOnCell_step (draws :: rest) g button r c hinv.2.1 hrc hre
      rw [e] at h; cases h
      exact Game.Inv.of_step hinv hs hre D a hl hnl hc

theorem Reachable.inv {g : Game} (h : Reachable g) : g.Inv := by
  induction h with
  | fresh f0 f draws hv ha hp =>
    obtain ⟨hpop, D, _⟩ := Field.populateMines_spec ha hv draws hp
    exact Game.Inv.of_populated (hv.of_sameDims D) hpop _ rfl 0
  | click g g1 rolls button r c _ hs hrc hclick ih =>
    exact (Game.Inv.click rolls g button r c g1 ih hs hrc hclick).1
  | quit g _ ih =>
    obtain ⟨hv, ha, _, hcells⟩ := ih
    refine ⟨hv, ha, (fun h => by cases h), ?_⟩
    intro i j hij
    obtain ⟨q1, q2, q3, _⟩ := hcells i j hij
    refine ⟨q1, q2, ?_, ?_⟩
    · intro hf
      rcases q3 hf with h | h
      · exact Or.inl h
      · exact Or.inr ⟨h.1, (fun h => by cases h)⟩
    · intro h
      cases h

/-! ## Rendering -/

theorem forM_ok {α : Type} (l : List α) (f : α → Except Fault Unit)
    (h : ∀ x ∈ l, f x = .ok ()) : l.forM f = .ok () := by
  induction l with
  | nil => rfl
  | cons a t ih =>
    rw [List.forM, h a (List.mem_cons_self a t), ok_bind]
    exact ih (fun x hx => h x (List.mem_cons_of_mem a hx))

theorem renderCell_ok {f : Field} (hf : f.Allocated) (r c : Nat)
    (hrc : f.InBounds r c = true)
    (hd : 0 ≤ (f.cell r c).danger ∧ (f.cell r c).danger ≤ 8) :
    RenderCell f r c = .ok () := by
  have h9 : 0 ≤ (f.cell r c).danger ∧ (f.cell r c).danger < 9 := ⟨hd.1, by omega⟩
  unfold RenderCell
  rw [Field.read_of_inBounds hf hrc, ok_bind]
  split_ifs <;> rfl

theorem renderGame_ok {f : Field} (hf : f.Allocated)
    (hd : ∀ i j, f.InBounds i j = true → 0 ≤ (f.cell i j).danger ∧ (f.cell i j).danger ≤ 8) :
    RenderGame f = .ok () := by
  unfold RenderGame
  apply forM_ok
  intro r hr
  apply forM_ok
  intro c hc
  have hrc : f.InBounds r c = true := by
    rw [Field.inBounds_iff]
    simp only [List.mem_range] at hr hc
    omega
  exact renderCell_ok hf r c hrc (hd r c hrc)

theorem clickedCell_trapped (button : Int) (x : Cell) (hit : Bool) (y : Cell) :
    (clickedCell button x hit y).trapped = y.trapped
      ∧ (clickedCell button x hit y).danger = y.danger := by
  unfold clickedCell
  split_ifs <;> exact ⟨rfl, rfl⟩

/-! ## The claims on revealing, the invariants and the controller -/

theorem minedField_allocated : minedField.Allocated := ⟨_, rfl, rfl, by decide⟩

theorem freshGame_reachable : Reachable freshGame :=
  Reachable.fresh sampleField minedField [0, 0, 1, 1] sampleField_valid sampleField_allocated rfl

theorem openedGame_reachable : Reachable openedGame :=
  Reachable.click freshGame openedGame [] SDL_BUTTON_LEFT 0 1 freshGame_reachable rfl rfl
    (by decide!)

theorem flagMineGame_reachable : Reachable flagMineGame :=
  Reachable.click openedGame flagMineGame [] SDL_BUTTON_RIGHT 1 1 openedGame_reachable rfl rfl
    (by decide!)

theorem lostFlaggedGame_reachable : Reachable lostFlaggedGame :=
  Reachable.click flagMineGame lostFlaggedGame [] SDL_BUTTON_LEFT 0 0 flagMineGame_reachable
    rfl rfl (by decide!)

/-- Claim C11.  On an allocated grid `RevealMines` returns, and in the result
every trapped cell has `locked = false` with `flagged`, `trapped` and `danger`
as before, and every cell without a mine is identical to what it was. -/
theorem revealMines_frame (f : Field) (hf : f.Allocated) :
    ∃ g, f.RevealMines = .ok g ∧ f.SameDims g ∧ ∀ r c, f.InBounds r c = true →
      ∃ x y, f.read r c = .ok x ∧ g.read r c = .ok y
        ∧ (x.trapped = true → y.locked = false ∧ y.flagged = x.flagged
            ∧ y.trapped = true ∧ y.danger = x.danger)
        ∧ (x.trapped = false → y = x) := by
  obtain ⟨g, e, D, a, c⟩ := Field.revealMines_spec hf
  refine ⟨g, e, D, ?_⟩
  intro r c0 hrc
  refine ⟨f.cell r c0, g.cell r c0, Field.read_of_inBounds hf hrc,
    Field.read_of_inBounds a (by rw [D.inBounds]; exact hrc), ?_, ?_⟩
  · intro ht
    rw [c r c0 hrc, if_pos ht]
    exact ⟨rfl, rfl, ht, rfl⟩
  · intro ht
    have : ¬ (f.cell r c0).trapped = true := by rw [ht]; decide
    rw [c r c0 hrc, if_neg this]

theorem revealMines_frame_witness :
    ∃ g, flagMineGame.field.RevealMines = .ok g ∧ flagMineGame.field.SameDims g
      ∧ ∀ r c, flagMineGame.field.InBounds r c = true →
        ∃ x y, flagMineGame.field.read r c = .ok x ∧ g.read r c = .ok y
          ∧ (x.trapped = true → y.locked = false ∧ y.flagged = x.flagged
              ∧ y.trapped = true ∧ y.danger = x.danger)
          ∧ (x.trapped = false → y = x) :=
  revealMines_frame flagMineGame.field ⟨_, rfl, rfl, by decide⟩

/-- Claim C12.  In every reachable session: when the state is `Failure`, every
trapped cell has `locked = false`; and a click dispatched while `Running` on an
in-bounds cell moves the state to `Failure` only when it is a left click on a
cell that is locked, unflagged and trapped. -/
theorem failure_reveals_mines (g : Game) (h : Reachable g) :
    (g.state = .FailureState → ∀ r c x, g.field.read r c = .ok x → x.trapped = true →
        x.locked = false)
    ∧ (∀ rolls button r c g1, g.state = .RunningState → g.field.InBounds r c = true →
        ClickOnCell rolls g button r c = .ok g1 → g1.state = .FailureState →
        button = SDL_BUTTON_LEFT ∧ ∃ x, g.field.read r c = .ok x ∧ x.locked = true
          ∧ x.flagged = false ∧ x.trapped = true) := by
  have hinv := h.inv
  constructor
  · intro hs r c x hx ht
    obtain ⟨hrc, rfl⟩ := Field.read_ok hinv.2.1 hx
    exact (hinv.2.2.2 r c hrc).2.2.2 hs ht
  · intro rolls button r c g1 hs hrc hclick hF
    rcases (Game.Inv.click rolls g button r c g1 hinv hs hrc hclick).2 with h1 | h1
    · rw [h1] at hF; cases hF
    · obtain ⟨hb, l1, l2, l3, _⟩ := h1.2
      exact ⟨hb, _, Field.read_of_inBounds hinv.2.1 hrc, l1, l2, l3⟩

theorem failure_reveals_mines_witness :
    (∀ r c x, lostFlaggedGame.field.read r c = .ok x → x.trapped = true → x.locked = false)
    ∧ (SDL_BUTTON_LEFT = SDL_BUTTON_LEFT ∧ ∃ x, flagMineGame.field.read 0 0 = .ok x
        ∧ x.locked = true ∧ x.flagged = false ∧ x.trapped = true) :=
  ⟨(failure_reveals_mines lostFlaggedGame lostFlaggedGame_reachable).1 rfl,
    (failure_reveals_mines flagMineGame flagMineGame_reachable).2 [] SDL_BUTTON_LEFT 0 0
      lostFlaggedGame rfl rfl (by decide!) rfl⟩

/-- Claim C13, refuted as stated.  The session `lostFlaggedGame` is reachable
(left click on `(0, 1)`, right click on the mine at `(1, 1)`, left click on the
mine at `(0, 0)`), and its cell `(1, 1)` is flagged and not locked. -/
theorem flagged_mine_unlocked_by_loss :
    ¬ (∀ g, Reachable g → ∀ r c x, g.field.read r c = .ok x → x.flagged = true →
        x.locked = true) :=
  fun h => absurd
    (h lostFlaggedGame lostFlaggedGame_reachable 1 1
      { locked := false, flagged := true, trapped := true, danger := 1 } rfl rfl)
    (by decide)

/-- Claim C13, amended.  In every reachable session a flagged cell is locked,
unless it holds a mine and the game is no longer `Running` (the mines that
`RevealMines` unlocked keep their flag). -/
theorem flagged_cells_locked (g : Game) (h : Reachable g) (r c : Int) (x : Cell)
    (hx : g.field.read r c = .ok x) (hf : x.flagged = true) :
    x.locked = true ∨ (x.trapped = true ∧ g.state ≠ .RunningState) := by
  have hinv := h.inv
  obtain ⟨hrc, rfl⟩ := Field.read_ok hinv.2.1 hx
  exact (hinv.2.2.2 r c hrc).2.2.1 hf

theorem flagged_cells_locked_witness :
    ∃ x, lostFlaggedGame.field.read 1 1 = .ok x ∧ x.flagged = true
      ∧ (x.locked = true ∨ (x.trapped = true ∧ lostFlaggedGame.state ≠ .RunningState)) :=
  ⟨{ locked := false, flagged := true, trapped := true, danger := 1 }, rfl, rfl,
    flagged_cells_locked lostFlaggedGame lostFlaggedGame_reachable 1 1
      { locked := false, flagged := true, trapped := true, danger := 1 } rfl rfl⟩

theorem raiseDanger_iterate_aux (n : Nat) :
    ∀ cell : Cell, cell.danger ≤ 8 →
      (Nat.iterate Cell.RaiseDanger n cell).locked = cell.locked
      ∧ (Nat.iterate Cell.RaiseDanger n cell).flagged = cell.flagged
      ∧ (Nat.iterate Cell.RaiseDanger n cell).trapped = cell.trapped
      ∧ (Nat.iterate Cell.RaiseDanger n cell).danger
          = if cell.trapped = true then cell.danger else min (cell.danger + n) 8 := by
  induction n with
  | zero =>
    intro cell h8
    refine ⟨rfl, rfl, rfl, ?_⟩
    simp only [Function.iterate_zero, id_eq]
    split_ifs
    · rfl
    · simp only [Nat.cast_zero, add_zero]
      omega
  | succ n ih =>
    intro cell h8
    have hd := cell.raiseDanger_danger
    have h8' : cell.RaiseDanger.danger ≤ 8 := by
      rw [hd]; split_ifs <;> omega
    obtain ⟨i1, i2, i3, i4⟩ := ih cell.RaiseDanger h8'
    rw [Function.iterate_succ_apply]
    refine ⟨by rw [i1, Cell.raiseDanger_locked], by rw [i2, Cell.raiseDanger_flagged],
      by rw [i3, Cell.raiseDanger_trapped], ?_⟩
    rw [i4, Cell.raiseDanger_trapped, hd]
    by_cases ht : cell.trapped = true
    · have : ¬ (cell.danger < 8 ∧ cell.trapped = false) := by
        rintro ⟨_, h⟩; rw [ht] at h; cases h
      rw [if_pos ht, if_pos ht, if_neg this]
    · have htf : cell.trapped = false := by simpa using ht
      rw [if_neg ht, if_neg ht]
      push_cast
      by_cases hlt : cell.danger < 8
      · rw [if_pos ⟨hlt, htf⟩]; omega
      · rw [if_neg (fun h => hlt h.1)]; omega

theorem FieldCell.raiseDanger_eq : FieldCell.RaiseDanger = Cell.RaiseDanger := rfl

/-- Claim C14.  For every cell with `danger ≤ 8` (so for every cell with
`0 ≤ danger ≤ 8`) and every `n`, `n` calls of `RaiseDanger` (of `Cell` and of
`FieldCell`) leave `danger` at `min (danger + n) 8` when the cell is not trapped
and unchanged when it is trapped, and never change `locked`, `flagged` and
`trapped`. -/
theorem raiseDanger_iterate (cell : Cell) (n : Nat) (h8 : cell.danger ≤ 8) :
    ((Nat.iterate Cell.RaiseDanger n cell).locked = cell.locked
      ∧ (Nat.iterate Cell.RaiseDanger n cell).flagged = cell.flagged
      ∧ (Nat.iterate Cell.RaiseDanger n cell).trapped = cell.trapped
      ∧ (Nat.iterate Cell.RaiseDanger n cell).danger
          = if cell.trapped = true then cell.danger else min (cell.danger + n) 8)
    ∧ ((Nat.iterate FieldCell.RaiseDanger n cell).locked = cell.locked
      ∧ (Nat.iterate FieldCell.RaiseDanger n cell).flagged = cell.flagged
      ∧ (Nat.iterate FieldCell.RaiseDanger n cell).trapped = cell.trapped
      ∧ (Nat.iterate FieldCell.RaiseDanger n cell).danger
          = if cell.trapped = true then cell.danger else min (cell.danger + n) 8) := by
  rw [FieldCell.raiseDanger_eq]
  exact ⟨raiseDanger_iterate_aux n cell h8, raiseDanger_iterate_aux n cell h8⟩

theorem raiseDanger_iterate_witness :
    (Nat.iterate Cell.RaiseDanger 20 freshCell).danger = 8
      ∧ (Nat.iterate FieldCell.RaiseDanger 20 freshCell).danger = 8 :=
  ⟨(raiseDanger_iterate freshCell 20 (by decide)).1.2.2.2,
    (raiseDanger_iterate freshCell 20 (by decide)).2.2.2.2⟩

/-- Claim C15.  On an allocated grid, a call of `ClickOnCell` (any button, any
cell that can be read) that does not take the first-click re-roll branch
returns, and so does `RevealMines`; both leave the `trapped` and `danger`
fields of every cell as they were. -/
theorem click_keeps_mine_placement (rolls : List (List Nat)) (g : Game) (button r c : Int)
    (x : Cell) (ha : g.field.Allocated) (hx : g.field.read r c = .ok x)
    (hno : ¬ (button = SDL_BUTTON_LEFT ∧ x.locked = true ∧ x.flagged = false
      ∧ x.trapped = true ∧ g.unlocks + 1 < 2)) :
    (∃ g1, ClickOnCell rolls g button r c = .ok g1
      ∧ ∀ i j y, g.field.read i j = .ok y →
          ∃ y1, g1.field.read i j = .ok y1 ∧ y1.trapped = y.trapped ∧ y1.danger = y.danger)
    ∧ (∃ f1, g.field.RevealMines = .ok f1
      ∧ ∀ i j y, g.field.read i j = .ok y →
          ∃ y1, f1.read i j = .ok y1 ∧ y1.trapped = y.trapped ∧ y1.danger = y.danger) := by
  obtain ⟨hrc, rfl⟩ := Field.read_ok ha hx
  constructor
  · obtain ⟨g1, e, D, a, _, _, _, hc⟩ := clickOnCell_step rolls g button r c ha hrc hno
    refine ⟨g1, e, ?_⟩
    intro i j y hy
    obtain ⟨hij, rfl⟩ := Field.read_ok ha hy
    refine ⟨g1.field.cell i j, Field.read_of_inBounds a (by rw [D.inBounds]; exact hij), ?_⟩
    rw [hc i j hij]
    exact clickedCell_trapped _ _ _ _
  · obtain ⟨f1, e, D, a, hc⟩ := Field.revealMines_spec ha
    refine ⟨f1, e, ?_⟩
    intro i j y hy
    obtain ⟨hij, rfl⟩ := Field.read_ok ha hy
    refine ⟨f1.cell i j, Field.read_of_inBounds a (by rw [D.inBounds]; exact hij), ?_⟩
    rw [hc i j hij]
    split_ifs <;> exact ⟨rfl, rfl⟩

theorem click_keeps_mine_placement_witness :
    (∃ g1, ClickOnCell [] flagMineGame SDL_BUTTON_LEFT 0 0 = .ok g1
      ∧ ∀ i j y, flagMineGame.field.read i j = .ok y →
          ∃ y1, g1.field.read i j = .ok y1 ∧ y1.trapped = y.trapped ∧ y1.danger = y.danger)
    ∧ (∃ f1, flagMineGame.field.RevealMines = .ok f1
      ∧ ∀ i j y, flagMineGame.field.read i j = .ok y →
          ∃ y1, f1.read i j = .ok y1 ∧ y1.trapped = y.trapped ∧ y1.danger = y.danger) :=
  click_keeps_mine_placement [] flagMineGame SDL_BUTTON_LEFT 0 0
    { locked := true, flagged := false, trapped := true, danger := 0 }
    ⟨_, rfl, rfl, by decide⟩ rfl (by decide)

/-- Claim C16.  `InBounds(r, c)` (of `Field` and of `MineField`) is true if and
only if `0 ≤ r < rows` and `0 ≤ c < columns`; on the 12 by 10 field `(0, 0)` and
`(11, 9)` are in bounds and `(12, 0)` and `(0, -1)` are not. -/
theorem inBounds_iff_in_range (f : Field) (r c : Int) :
    (f.InBounds r c = true ↔ 0 ≤ r ∧ r < f.rows ∧ 0 ≤ c ∧ c < f.columns)
    ∧ (MineField.InBounds f r c = true ↔ 0 ≤ r ∧ r < f.rows ∧ 0 ≤ c ∧ c < f.columns)
    ∧ mainField.InBounds 0 0 = true ∧ mainField.InBounds 11 9 = true
    ∧ mainField.InBounds 12 0 = false ∧ mainField.InBounds 0 (-1) = false
    ∧ MineField.InBounds mainField 0 0 = true ∧ MineField.InBounds mainField 11 9 = true
    ∧ MineField.InBounds mainField 12 0 = false
    ∧ MineField.InBounds mainField 0 (-1) = false :=
  ⟨Field.inBounds_iff f r c, Field.inBounds_iff f r c, rfl, rfl, rfl, rfl, rfl, rfl, rfl, rfl⟩

/-- Claim C17.  In every reachable session every cell, trapped or not, has
`0 ≤ danger ≤ 8`, and `RenderGame` runs through without an access outside the
grid or outside the 9 entries of `numbers`. -/
theorem danger_in_range (g : Game) (h : Reachable g) :
    (∀ r c x, g.field.read r c = .ok x → 0 ≤ x.danger ∧ x.danger ≤ 8)
      ∧ RenderGame g.field = .ok () := by
  have hinv := h.inv
  constructor
  · intro r c x hx
    obtain ⟨hrc, rfl⟩ := Field.read_ok hinv.2.1 hx
    exact ⟨(hinv.2.2.2 r c hrc).1, (hinv.2.2.2 r c hrc).2.1⟩
  · exact renderGame_ok hinv.2.1 (fun i j hij =>
      ⟨(hinv.2.2.2 i j hij).1, (hinv.2.2.2 i j hij).2.1⟩)

theorem danger_in_range_witness :
    (∀ r c x, lostFlaggedGame.field.read r c = .ok x → 0 ≤ x.danger ∧ x.danger ≤ 8)
      ∧ RenderGame lostFlaggedGame.field = .ok () :=
  danger_in_range lostFlaggedGame lostFlaggedGame_reachable

theorem handleEvents_state (events : List (Event × List (List Nat))) :
    ∀ (g g1 : Game), g.state ≠ .SuccessState → HandleEvents events g = .ok g1 →
      g1.state ≠ .SuccessState := by
  induction events with
  | nil =>
    intro g g1 hs h
    rw [HandleEvents] at h
    cases h
    exact hs
  | cons ev rest ih =>
    intro g g1 hs h
    obtain ⟨e, rolls⟩ := ev
    cases e with
    | quit =>
      rw [HandleEvents] at h
      exact ih _ g1 (fun h => by cases h) h
    | mouseButtonUp button x y =>
      rw [HandleEvents] at h
      split_ifs at h with hr
      · split at h
        · cases h
        · rename_i g2 hclick
          refine ih g2 g1 ?_ h
          rcases clickOnCell_state _ _ _ _ _ _ hclick with h2 | h2
          · rw [h2]; exact hs
          · rw [h2]; decide
      · exact ih g g1 hs h
    | other =>
      rw [HandleEvents] at h
      exact ih g g1 hs h

/-- Claim C18.  From every state other than `Success`, whatever clicks and
window-close events `HandleEvents` and `ClickOnCell` handle, the state they
return is `Running`, `Quit` or `Failure`, never `Success`. -/
theorem state_never_success (g : Game) (hs : g.state ≠ .SuccessState) :
    (∀ events g1, HandleEvents events g = .ok g1 →
        g1.state = .RunningState ∨ g1.state = .QuitState ∨ g1.state = .FailureState)
    ∧ (∀ rolls button r c g1, ClickOnCell rolls g button r c = .ok g1 →
        g1.state = .RunningState ∨ g1.state = .QuitState ∨ g1.state = .FailureState) := by
  have key : ∀ s : State, s ≠ .SuccessState →
      s = .RunningState ∨ s = .QuitState ∨ s = .FailureState := by
    intro s h
    cases s
    · exact Or.inl rfl
    · exact Or.inr (Or.inl rfl)
    · exact absurd rfl h
    · exact Or.inr (Or.inr rfl)
  constructor
  · intro events g1 h
    exact key _ (handleEvents_state events g g1 hs h)
  · intro rolls button r c g1 h
    rcases clickOnCell_state rolls g button r c g1 h with h2 | h2
    · exact key _ (by rw [h2]; exact hs)
    · exact Or.inr (Or.inr h2)

theorem state_never_success_witness :
    HandleEvents [(.mouseButtonUp SDL_BUTTON_LEFT 60 10, []),
        (.mouseButtonUp SDL_BUTTON_LEFT 10 60, [])] freshGame = .ok clearedGame
    ∧ (clearedGame.state = .RunningState ∨ clearedGame.state = .QuitState
        ∨ clearedGame.state = .FailureState) :=
  ⟨by decide!, (state_never_success freshGame (by decide)).1
    [(.mouseButtonUp SDL_BUTTON_LEFT 60 10, []), (.mouseButtonUp SDL_BUTTON_LEFT 10 60, [])]
    clearedGame (by decide!)⟩

/-- Claim C19.  On a field with an allocated grid (the grid of every valid
field after `Alloc`), for every mouse position inside the window,
`0 ≤ x < columns * CELL_SIZE` and `0 ≤ y < rows * CELL_SIZE`, the coordinates
`(y / CELL_SIZE, x / CELL_SIZE)` that `HandleEvents` passes to `ClickOnCell` are
in bounds and the access `grid[r][c]` of `ClickOnCell` is defined. -/
theorem click_coordinates_inBounds (f : Field) (x y : Int) (ha : f.Allocated)
    (hx0 : 0 ≤ x) (hx : x < f.columns * CELL_SIZE) (hy0 : 0 ≤ y)
    (hy : y < f.rows * CELL_SIZE) :
    f.InBounds (Int.tdiv y CELL_SIZE) (Int.tdiv x CELL_SIZE) = true
      ∧ ∃ cell, f.read (Int.tdiv y CELL_SIZE) (Int.tdiv x CELL_SIZE) = .ok cell := by
  have hin : f.InBounds (Int.tdiv y CELL_SIZE) (Int.tdiv x CELL_SIZE) = true := by
    rw [Field.inBounds_iff, Int.tdiv_eq_ediv hy0 (by decide), Int.tdiv_eq_ediv hx0 (by decide)]
    unfold CELL_SIZE at *
    omega
  exact ⟨hin, _, Field.read_of_inBounds ha hin⟩

theorem click_coordinates_inBounds_witness :
    minedField.InBounds (Int.tdiv 99 CELL_SIZE) (Int.tdiv 99 CELL_SIZE) = true
      ∧ ∃ cell, minedField.read (Int.tdiv 99 CELL_SIZE) (Int.tdiv 99 CELL_SIZE) = .ok cell :=
  click_coordinates_inBounds minedField 99 99 minedField_allocated
    (by decide) (by decide) (by decide) (by decide)

end Minesweeper
